import Mathlib

/-
  Verification of the multi-ingester ingestion pipeline.

  Shallow embedding of the Go sources:
    * internal/store/dedup.go      — TTL-bound LRU dedup store (Dedup, NewDedup, Seen, Mark)
    * internal/util/httpclient.go  — Retry (bounded exponential backoff with cancellation)
    * internal/postprocess         — rule engine (New, Apply)
    * cmd/main.go                  — per-source orchestration inside runOnce

  Conventions:
    * Go strings are modelled as `Str := List Char`.
    * Go `time.Time` / `time.Duration` are modelled as `Nat` nanoseconds; each
      operation that calls `time.Now()` takes the current time as an explicit
      `now` parameter.  A single ingestion cycle is modelled at one instant.
    * Go maps used as label bags are modelled as association lists with
      upsert/first-occurrence-lookup semantics (Go map keys are unique).
    * `container/list` + index map of the dedup store are modelled as one list
      of (key, expiry) pairs, most recently used first; the Go `items` map is
      an index into the list and carries no extra information.
-/

abbrev Str := List Char

/-- Coercion from a Lean string literal to the `List Char` string model. -/
def str (s : String) : Str := s.data

/-- Model of Go `strings.ToLower` (simple character lowering). -/
def strToLower (s : Str) : Str := s.map Char.toLower

/-- Whitespace test used by the model of `strings.TrimSpace`. -/
def isSpaceCh (c : Char) : Bool := c = ' ' || c = '\t' || c = '\n' || c = '\r'

/-- Model of Go `strings.TrimSpace`: drop whitespace from both ends. -/
def trimSpace (s : Str) : Str :=
  ((s.dropWhile isSpaceCh).reverse.dropWhile isSpaceCh).reverse

/-- Does `sub` occur at the very start of `s`? (helper for `strContains`). -/
def isPrefixAt : Str → Str → Bool
  | [], _ => true
  | _ :: _, [] => false
  | a :: p, b :: s => a == b && isPrefixAt p s

/-- Model of Go `strings.Contains s sub`: `sub` occurs somewhere in `s`
(the empty string is contained in every string). -/
def strContains : Str → Str → Bool
  | [], sub => sub.isEmpty
  | c :: rest, sub => isPrefixAt sub (c :: rest) || strContains rest sub

namespace store

/-- One entry of the dedup store: key and absolute expiry time
(Go `entry{key string; exp time.Time}`). -/
abbrev Entry := Str × Nat

/-- The dedup store (Go `store.Dedup`).  `ll` is the recency list, most
recently used first; the Go `items` map is an index into `ll` and is not
represented separately.  The mutex only serializes access and has no
behavioural content in this sequential model. -/
structure Dedup where
  cap : Nat
  ttl : Nat
  ll : List Entry
deriving DecidableEq

/-- Association lookup in the recency list (Go `d.items[key]`, returning the
entry's expiry). -/
def findExp : List Entry → Str → Option Nat
  | [], _ => none
  | (k, e) :: rest, key => if k = key then some e else findExp rest key

/-- Remove the (first, and in reachable states only) occurrence of `key`
(Go `d.ll.Remove(el); delete(d.items, key)`). -/
def removeKey : List Entry → Str → List Entry
  | [], _ => []
  | (k, e) :: rest, key => if k = key then rest else (k, e) :: removeKey rest key

/-- Go `NewDedup(maxKeys int, ttl time.Duration)`: non-positive capacity
defaults to 10000 keys, non-positive TTL defaults to 24 hours
(86400000000000 ns). -/
def NewDedup (maxKeys : Int) (ttl : Int) : Dedup :=
  { cap := if maxKeys ≤ 0 then 10000 else maxKeys.toNat
    ttl := if ttl ≤ 0 then 86400000000000 else ttl.toNat
    ll := [] }

/-- Go `Dedup.Seen(key)`: true iff an entry exists whose expiry is strictly
after `now`; a hit is promoted to the front, an expired hit is removed. -/
def Dedup.Seen (d : Dedup) (now : Nat) (key : Str) : Bool × Dedup :=
  match findExp d.ll key with
  | some exp =>
    if now < exp then
      (true, { d with ll := (key, exp) :: removeKey d.ll key })
    else
      (false, { d with ll := removeKey d.ll key })
  | none => (false, d)

/-- The Go eviction loop `for d.ll.Len() > d.cap { remove back }` removes
elements from the back one at a time until at most `cap` remain, i.e. it
keeps exactly the first `cap` list elements. -/
def evictOver (cap : Nat) (l : List Entry) : List Entry := l.take cap

/-- The Go sweep loop removes the back element while it exists and is
expired (`!now.Before(exp)`, i.e. `exp ≤ now`), stopping at the first
unexpired entry from the back. -/
def sweepTail (now : Nat) (l : List Entry) : List Entry :=
  (l.reverse.dropWhile (fun en => decide (en.2 ≤ now))).reverse

/-- Go `Dedup.Mark(key)`: refresh an existing entry (new expiry `now+ttl`,
move to front), or push a new entry at the front, then evict over-capacity
entries from the back and sweep expired entries at the back. -/
def Dedup.Mark (d : Dedup) (now : Nat) (key : Str) : Dedup :=
  match findExp d.ll key with
  | some _ => { d with ll := (key, now + d.ttl) :: removeKey d.ll key }
  | none =>
    { d with ll := sweepTail now (evictOver d.cap ((key, now + d.ttl) :: d.ll)) }

/-- One external operation on the dedup store. -/
inductive DedupOp where
  | seenOp (now : Nat) (key : Str)
  | markOp (now : Nat) (key : Str)

/-- Apply one operation to the store. -/
def stepOp (d : Dedup) : DedupOp → Dedup
  | .seenOp now key => (d.Seen now key).2
  | .markOp now key => d.Mark now key

/-- Run a sequence of Seen/Mark operations. -/
def runOps (d : Dedup) : List DedupOp → Dedup
  | [] => d
  | op :: rest => runOps (stepOp d op) rest

/-- Keys of the recency list, in recency order. -/
def keysOf (l : List Entry) : List Str := l.map Prod.fst

/-- Survival invariant for a marked key `k` with expiry `E` while later
operations of the same batch run: the entry `(k, E)` sits at depth at most
`j` from the front of the recency list and `k` appears nowhere else.  Each
later operation deepens the entry by at most one position, and eviction
only ever removes entries at depth at least `cap`. -/
def SegInv (k : Str) (E j : Nat) (l : List Entry) : Prop :=
  ∃ a b, l = a ++ (k, E) :: b ∧ a.length ≤ j ∧ k ∉ keysOf a ∧ k ∉ keysOf b

end store

namespace util

/-- Outcome of `util.Retry` (Go returns `error`; `ok` is `nil`, `cancelled`
is `ctx.Err()`, `exhausted` is the unreachable `errors.New("retry: exhausted")`). -/
inductive RetryResult (ε : Type) where
  | ok : RetryResult ε
  | failed : ε → RetryResult ε
  | cancelled : RetryResult ε
  | exhausted : RetryResult ε
deriving DecidableEq

/-- Observable trace of one `Retry` run: its result, how many times the
operation `fn` was invoked, and the inter-attempt delays that were waited
to completion (an interrupted wait is not recorded). -/
structure RetryTrace (ε : Type) where
  result : RetryResult ε
  calls : Nat
  waits : List Nat
deriving DecidableEq

/-- The Go delay update after a failed non-final attempt:
`if d < max { d *= 2; if d > max { d = max } }`. -/
def stepDelay (maxD d : Nat) : Nat :=
  if d < maxD then (if maxD < 2 * d then maxD else 2 * d) else d

/-- The Go retry loop `for i := 0; i < attempts; i++`, with `fuel`
standing for `attempts - i`.  `fn j` is the outcome of the `j`-th
invocation of the operation (`none` = success).  `cancel j = true` means
that, in the `select` guarding the wait before attempt `j`, `ctx.Done()`
fires before the `time.After` timer. -/
def retryGo (fn : Nat → Option ε) (cancel : Nat → Bool) (maxD : Nat) :
    Nat → Nat → Nat → List Nat → RetryTrace ε
  | 0, i, _, ws => ⟨.exhausted, i, ws⟩
  | fuel + 1, i, d, ws =>
    if i = 0 then
      match fn i with
      | none => ⟨.ok, i + 1, ws⟩
      | some e =>
        if fuel = 0 then ⟨.failed e, i + 1, ws⟩
        else retryGo fn cancel maxD fuel (i + 1) (stepDelay maxD d) ws
    else
      if cancel i then ⟨.cancelled, i, ws⟩
      else
        match fn i with
        | none => ⟨.ok, i + 1, ws ++ [d]⟩
        | some e =>
          if fuel = 0 then ⟨.failed e, i + 1, ws ++ [d]⟩
          else retryGo fn cancel maxD fuel (i + 1) (stepDelay maxD d) (ws ++ [d])

/-- Go `util.Retry(ctx, attempts, initial, max, fn)`.  With `attempts <= 1`
the operation runs exactly once and the context is never consulted;
otherwise the loop above runs with `i` starting at 0. -/
def Retry (fn : Nat → Option ε) (cancel : Nat → Bool) (attempts : Int)
    (initial maxD : Nat) : RetryTrace ε :=
  if attempts ≤ 1 then
    match fn 0 with
    | none => ⟨.ok, 1, []⟩
    | some e => ⟨.failed e, 1, []⟩
  else retryGo fn cancel maxD attempts.toNat 0 initial []

/-- The list of delays `[d, step d, step (step d), ...]` of length `n`:
the waits performed by `n` consecutive retries starting at current delay
`d`. -/
def waitsList (maxD : Nat) : Nat → Nat → List Nat
  | _, 0 => []
  | d, n + 1 => d :: waitsList maxD (stepDelay maxD d) n

/-- A context that is never cancelled. -/
def noCancel : Nat → Bool := fun _ => false

end util

namespace model

/-- Go `model.Event` (the `Raw map[string]any` payload is opaque to every
verified component and is omitted; a `nil` labels map is modelled as `[]`,
which is observationally equal for the rule engine, since it only reads
and upserts). -/
structure Event where
  id : Str
  source : Str
  title : Str
  summary : Str
  url : Str
  published : Nat
  lang : Str
  country : Str
  labels : List (Str × Str)
deriving DecidableEq

end model

namespace config

/-- Go `config.KeywordRule` (`when` is a Lean keyword, hence `whenWords`). -/
structure KeywordRule where
  whenWords : List Str
  labels : List (Str × Str)
deriving DecidableEq

/-- Go `config.RegexRule`. -/
structure RegexRule where
  field : Str
  expr : Str
  labels : List (Str × Str)
deriving DecidableEq

/-- Go `config.MapRule`. -/
structure MapRule where
  field : Str
  mapping : List (Str × Str)
  outKey : Str
deriving DecidableEq

/-- Go `config.PostProcessConfig`. -/
structure PostProcessConfig where
  keywords : List KeywordRule
  regex : List RegexRule
  maps : List MapRule
deriving DecidableEq

end config

namespace postprocess

open model config

/-- First-occurrence association lookup (Go map read `m[k]`). -/
def lookupL : List (Str × Str) → Str → Option Str
  | [], _ => none
  | (k, v) :: rest, key => if k = key then some v else lookupL rest key

/-- Upsert into a label bag (Go map write `m[k] = v`). -/
def setLabel : List (Str × Str) → Str → Str → List (Str × Str)
  | [], k, v => [(k, v)]
  | (k0, v0) :: rest, k, v =>
    if k0 = k then (k, v) :: rest else (k0, v0) :: setLabel rest k v

/-- Merge a rule's label map into an event's label bag (one Go
`for k, v := range labels { ev.Labels[k] = v }` loop; rule label maps have
unique keys, so the Go map iteration order is irrelevant). -/
def mergeLabels (bag : List (Str × Str)) : List (Str × Str) → List (Str × Str)
  | [] => bag
  | (k, v) :: rest => mergeLabels (setLabel bag k v) rest

/-- Go `postprocess.Engine` (a compiled regex is carried as its source
pattern; compilation success is the `compileOk` oracle below). -/
structure Engine where
  kw : List KeywordRule
  regs : List RegexRule
  maps : List MapRule
deriving DecidableEq

/-- Compile every regex rule; the first pattern rejected by the compile
oracle aborts with `none` (Go `regexp.Compile` error propagation in
`postprocess.New`).  `compileOk pat` abstracts "Go `regexp.Compile(pat)`
succeeds". -/
def compileAll (compileOk : Str → Bool) : List RegexRule → Option (List RegexRule)
  | [] => some []
  | r :: rest =>
    if compileOk r.expr then
      match compileAll compileOk rest with
      | some rs => some (r :: rs)
      | none => none
    else none

/-- Go `postprocess.New(cfg)`: validates every regex pattern at
construction time, failing (returning `none`) on the first invalid one. -/
def New (compileOk : Str → Bool) (cfg : PostProcessConfig) : Option Engine :=
  match compileAll compileOk cfg.regex with
  | some regs => some ⟨cfg.keywords, regs, cfg.maps⟩
  | none => none

/-- Keyword-rule normalization performed at the top of `postprocess.Apply`:
trim and lowercase each word, drop blank words, drop rules that end up
with no words. -/
def normWords (ws : List Str) : List Str :=
  ws.filterMap fun w =>
    let s := trimSpace w
    if s = [] then none else some (strToLower s)

/-- Normalized keyword rules (`krules` in `postprocess.Apply`). -/
def normKeywordRules (rules : List KeywordRule) : List (List Str × List (Str × Str)) :=
  rules.filterMap fun kr =>
    if kr.whenWords = [] then none
    else
      let words := normWords kr.whenWords
      if words = [] then none else some (words, kr.labels)

/-- Normalized regex rules (`rrules` in `postprocess.Apply`): blank field or
blank pattern is skipped, and a pattern that fails to compile is skipped
silently (the Go code `continue`s on a `regexp.Compile` error). -/
def normRegexRules (compileOk : Str → Bool) (rules : List RegexRule) :
    List RegexRule :=
  rules.filter fun rr =>
    !(trimSpace rr.field).isEmpty && !(trimSpace rr.expr).isEmpty && compileOk rr.expr

/-- Normalized map rules (`mrules` in `postprocess.Apply`): blank field or
empty mapping is skipped; an empty out-key defaults to the field name. -/
def normMapRules (rules : List MapRule) : List MapRule :=
  rules.filterMap fun mr =>
    if trimSpace mr.field = [] ∨ mr.mapping = [] then none
    else some ⟨mr.field, mr.mapping, if mr.outKey = [] then mr.field else mr.outKey⟩

/-- Go `getField` helper in `postprocess.Apply`: fixed field names resolve
to event fields (name compared lowercased), any other name is looked up in
the label bag with its original spelling, absent meaning empty. -/
def getField (e : Event) (name : Str) : Str :=
  let n := strToLower name
  if n = str "title" then e.title
  else if n = str "summary" then e.summary
  else if n = str "url" then e.url
  else if n = str "lang" ∨ n = str "language" then e.lang
  else if n = str "country" then e.country
  else
    match lookupL e.labels name with
    | some v => v
    | none => []

/-- The matched test of one keyword rule in `postprocess.Apply`: every
normalized word must occur in the lowercased title or in the lowercased
summary. -/
def kwMatched (words : List Str) (titleLC sumLC : Str) : Bool :=
  words.all fun w => strContains titleLC w || strContains sumLC w

/-- Apply all keyword rules to one event (step 1 of the per-event loop). -/
def applyKeywordRules (krules : List (List Str × List (Str × Str))) (e : Event) :
    Event :=
  let titleLC := strToLower e.title
  let sumLC := strToLower e.summary
  { e with
    labels := krules.foldl
      (fun bag kr => if kwMatched kr.1 titleLC sumLC then mergeLabels bag kr.2 else bag)
      e.labels }

/-- Apply all regex rules to one event (step 2); `reMatch pat s` abstracts
"the compiled form of `pat` matches `s`" (Go `re.MatchString`). -/
def applyRegexRules (reMatch : Str → Str → Bool) (rrules : List RegexRule)
    (e : Event) : Event :=
  { e with
    labels := rrules.foldl
      (fun bag rr =>
        let val := getField { e with labels := bag } rr.field
        if val = [] then bag
        else if reMatch rr.expr val then mergeLabels bag rr.labels else bag)
      e.labels }

/-- Apply all map rules to one event (step 3). -/
def applyMapRules (mrules : List MapRule) (e : Event) : Event :=
  { e with
    labels := mrules.foldl
      (fun bag mr =>
        let val := getField { e with labels := bag } mr.field
        if val = [] then bag
        else
          match lookupL mr.mapping val with
          | some mapped => setLabel bag mr.outKey mapped
          | none => bag)
      e.labels }

/-- The per-event body of `postprocess.Apply`: keyword rules, then regex
rules, then map rules (the Go nil-map guard on `Labels` is a no-op in this
model). -/
def applyEvent (reMatch : Str → Str → Bool)
    (krules : List (List Str × List (Str × Str))) (rrules : List RegexRule)
    (mrules : List MapRule) (e : Event) : Event :=
  applyMapRules mrules (applyRegexRules reMatch rrules (applyKeywordRules krules e))

/-- Go `postprocess.Apply(events, cfg)`: the package-level function invoked
by the orchestrator.  It normalizes the configured rules itself (silently
skipping malformed ones) and maps the per-event body over the batch;
an empty batch is returned unchanged. -/
def Apply (compileOk : Str → Bool) (reMatch : Str → Str → Bool)
    (events : List Event) (cfg : PostProcessConfig) : List Event :=
  if events.isEmpty then events
  else
    events.map
      (applyEvent reMatch (normKeywordRules cfg.keywords)
        (normRegexRules compileOk cfg.regex) (normMapRules cfg.maps))

end postprocess

namespace pipeline

open model store postprocess config

/-- The composite dedup key computed in `runOnce`:
`e.Source + "::" + e.ID`. -/
def dedupKey (e : Event) : Str := e.source ++ str "::" ++ e.id

/-- The dedup filter loop of `runOnce` (cmd/main.go lines 101-118): for each
event in fetch order, query `Seen` on its composite key; a seen event is
dropped, an unseen event is kept and its key is immediately marked.  The
store is threaded through sequentially; order of kept events is preserved. -/
def dedupFilter (d : Dedup) (now : Nat) : List Event → List Event × Dedup
  | [] => ([], d)
  | e :: rest =>
    let key := dedupKey e
    let sd := d.Seen now key
    if sd.1 then dedupFilter sd.2 now rest
    else
      let d2 := sd.2.Mark now key
      let res := dedupFilter d2 now rest
      (e :: res.1, res.2)

/-- Result of processing one source in one cycle of `runOnce`. -/
structure SourceResult where
  dedup : Option Dedup
  pushed : Option (List Event)
  errs : List Str
  delivered : Nat
  fetchFailed : Bool
deriving DecidableEq

/-- The post-filter tail of one source's slice of `runOnce` (cmd/main.go
lines 120-159), for the already-dedup-filtered batch `kept` and the store
state `d1` left by the filter: an empty batch skips the source; otherwise
the batch is enriched by `postprocess.Apply` and pushed to every sink, all
errors are collected (`errCh` drained after `wg.Wait()`), and only a fully
successful push increments the delivered-events counter (by the batch
size); on any sink error the counters are left untouched and the dedup
store `d1` — marks included — is returned as is. -/
def pushStage (compileOk : Str → Bool) (reMatch : Str → Str → Bool)
    (cfgPost : PostProcessConfig) (sinks : List (List Event → Option Str))
    (kept : List Event) (d1 : Option Dedup) : SourceResult :=
  if kept.isEmpty then ⟨d1, none, [], 0, false⟩
  else
    let evs2 := Apply compileOk reMatch kept cfgPost
    let errs := sinks.filterMap fun sk => sk evs2
    if errs.isEmpty then ⟨d1, some evs2, [], evs2.length, false⟩
    else ⟨d1, some evs2, errs, 0, false⟩

/-- One source's slice of `runOnce` (cmd/main.go lines 92-159).  External
effects appear as oracles: `fetchRes` is the outcome of `src.Fetch`
(`none` = fetch error, which skips the source); each element of `sinks` is
one configured sink's `Push` on a batch (`none` = success, `some msg` =
error).  A disabled dedup store is `dedup0 = none`.  The fetched batch is
dedup-filtered (when the store is enabled) and handed to `pushStage`. -/
def processSource (compileOk : Str → Bool) (reMatch : Str → Str → Bool)
    (cfgPost : PostProcessConfig) (sinks : List (List Event → Option Str))
    (now : Nat) (dedup0 : Option Dedup) (fetchRes : Option (List Event)) :
    SourceResult :=
  match fetchRes with
  | none => ⟨dedup0, none, [], 0, true⟩
  | some evs0 =>
    match dedup0 with
    | some dd =>
      let fd := dedupFilter dd now evs0
      pushStage compileOk reMatch cfgPost sinks fd.1 (some fd.2)
    | none => pushStage compileOk reMatch cfgPost sinks evs0 none

end pipeline

namespace postprocess

/-- Keyword matching as the SPEC words it, written from the spec's sentence
"matches if all are present in the concatenation of title+summary
(case-insensitive, substring match)" — for comparison against the code's
`kwMatched`, which tests title and summary separately. -/
def specKwMatched (words : List Str) (title summary : Str) : Bool :=
  words.all fun w => strContains (strToLower (title ++ summary)) w

end postprocess

namespace fixtures

open model config

/-- Concrete event fixture (id "1"). -/
def evA : Event := ⟨str "1", str "s", str "Tariff hike", str "x", [], 0, [], [], []⟩

/-- Concrete event fixture (id "2"). -/
def evB : Event := ⟨str "2", str "s", str "Other", str "y", [], 0, [], [], []⟩

/-- Event whose title is "a" and summary is "b" (keyword straddle case). -/
def evAB : Event := ⟨str "3", str "s", str "a", str "b", [], 0, [], [], []⟩

/-- A sink whose push always fails. -/
def failSink : List Event → Option Str := fun _ => some (str "boom")

/-- A sink whose push always succeeds. -/
def okSink : List Event → Option Str := fun _ => none

/-- Empty post-process rule configuration. -/
def cfgEmpty : PostProcessConfig := ⟨[], [], []⟩

/-- Configuration with a single regex rule whose pattern "(" is rejected by
Go's `regexp.Compile`. -/
def cfgBadRegex : PostProcessConfig :=
  ⟨[], [⟨str "title", str "(", [(str "x", str "y")]⟩], []⟩

/-- Compile oracle modelling that Go `regexp.Compile` rejects the lone
pattern "(" (a syntactically invalid regex) and accepts the others used
here. -/
def compileNotParen : Str → Bool := fun e => !(e == str "(")

/-- Compile oracle accepting everything. -/
def compileAlways : Str → Bool := fun _ => true

/-- Match oracle: every compiled pattern matches every value. -/
def matchAlways : Str → Str → Bool := fun _ _ => true

end fixtures

namespace store

/-- A key is absent from the recency list iff `findExp` misses. -/
theorem findExp_eq_none_iff : ∀ (l : List Entry) (k : Str),
    findExp l k = none ↔ k ∉ keysOf l
  | [], k => by simp [findExp, keysOf]
  | (k0, e0) :: rest, k => by
    by_cases h : k0 = k
    · subst h; simp [findExp, keysOf]
    · simp only [findExp, keysOf, List.map_cons, List.mem_cons, if_neg h]
      rw [findExp_eq_none_iff rest k]
      simp [keysOf, Ne.symm h]

/-- Removing a found key shortens the list by exactly one. -/
theorem removeKey_length : ∀ (l : List Entry) (k : Str) (e : Nat),
    findExp l k = some e → (removeKey l k).length + 1 = l.length
  | [], _, _, h => by simp [findExp] at h
  | (k0, e0) :: rest, k, e, h => by
    by_cases hk : k0 = k
    · simp [removeKey, hk]
    · simp only [findExp, if_neg hk] at h
      simp only [removeKey, if_neg hk, List.length_cons]
      rw [← removeKey_length rest k e h]

/-- `removeKey` yields a sublist. -/
theorem removeKey_sublist : ∀ (l : List Entry) (k : Str),
    (removeKey l k).Sublist l
  | [], _ => List.Sublist.refl []
  | (k0, e0) :: rest, k => by
    by_cases hk : k0 = k
    · simp only [removeKey, if_pos hk]
      exact List.sublist_cons_self (k0, e0) rest
    · simp only [removeKey, if_neg hk]
      exact (removeKey_sublist rest k).cons₂ (k0, e0)

/-- With duplicate-free keys, removing a key makes it absent. -/
theorem not_mem_keys_removeKey : ∀ (l : List Entry) (k : Str),
    (keysOf l).Nodup → k ∉ keysOf (removeKey l k)
  | [], k, _ => by simp [removeKey, keysOf]
  | (k0, e0) :: rest, k, hnd => by
    simp only [keysOf, List.map_cons, List.nodup_cons] at hnd
    by_cases hk : k0 = k
    · subst hk
      simpa [removeKey, keysOf] using hnd.1
    · simp only [removeKey, if_neg hk, keysOf, List.map_cons, List.mem_cons]
      push_neg
      exact ⟨fun h => hk (h ▸ rfl), not_mem_keys_removeKey rest k hnd.2⟩

/-- With duplicate-free keys, `findExp` misses after `removeKey`. -/
theorem findExp_removeKey_self (l : List Entry) (k : Str)
    (h : (keysOf l).Nodup) : findExp (removeKey l k) k = none :=
  (findExp_eq_none_iff _ _).2 (not_mem_keys_removeKey l k h)

/-- `dropWhile` keeps a suffix: what it keeps can be re-extended to the
original list. -/
theorem dropWhile_extend (p : Entry → Bool) (l : List Entry) :
    ∃ s, s ++ l.dropWhile p = l :=
  ⟨l.takeWhile p, List.takeWhile_append_dropWhile p l⟩

/-- The sweep keeps a front segment of the recency list. -/
theorem sweepTail_extend (now : Nat) (l : List Entry) :
    ∃ t, sweepTail now l ++ t = l := by
  obtain ⟨s, hs⟩ := dropWhile_extend (fun en => decide (en.2 ≤ now)) l.reverse
  refine ⟨s.reverse, ?_⟩
  have h2 := congrArg List.reverse hs
  simpa [sweepTail, List.reverse_append] using h2

/-- The sweep never lengthens the list. -/
theorem length_sweepTail_le (now : Nat) (l : List Entry) :
    (sweepTail now l).length ≤ l.length := by
  obtain ⟨t, ht⟩ := sweepTail_extend now l
  have := congrArg List.length ht
  simp only [List.length_append] at this
  omega

/-- `Seen` preserves capacity and TTL. -/
theorem Seen_cap_ttl (d : Dedup) (now : Nat) (k : Str) :
    ((d.Seen now k).2).cap = d.cap ∧ ((d.Seen now k).2).ttl = d.ttl := by
  rcases h : findExp d.ll k with _ | e <;> simp [Dedup.Seen, h]
  split <;> simp

/-- `Mark` preserves capacity and TTL. -/
theorem Mark_cap_ttl (d : Dedup) (now : Nat) (k : Str) :
    (d.Mark now k).cap = d.cap ∧ (d.Mark now k).ttl = d.ttl := by
  rcases h : findExp d.ll k with _ | e <;> simp [Dedup.Mark, h]

/-- `Seen` never lengthens the recency list. -/
theorem Seen_length_le (d : Dedup) (now : Nat) (k : Str) :
    ((d.Seen now k).2).ll.length ≤ d.ll.length := by
  rcases h : findExp d.ll k with _ | e
  · simp [Dedup.Seen, h]
  · have hlen := removeKey_length d.ll k e h
    by_cases hlt : now < e <;> simp [Dedup.Seen, h, hlt] <;> omega

/-- After `Mark` the recency list respects capacity, provided it did
before. -/
theorem Mark_length_le (d : Dedup) (now : Nat) (k : Str)
    (hlen : d.ll.length ≤ d.cap) : (d.Mark now k).ll.length ≤ d.cap := by
  rcases h : findExp d.ll k with _ | e
  · simp only [Dedup.Mark, h]
    refine le_trans (length_sweepTail_le _ _) ?_
    simp [evictOver, List.length_take]
  · have hrm := removeKey_length d.ll k e h
    simp only [Dedup.Mark, h, List.length_cons]
    omega

/-- Any run of Seen/Mark operations keeps the list within capacity (and
fixes the capacity). -/
theorem runOps_invariant : ∀ (ops : List DedupOp) (d : Dedup),
    d.ll.length ≤ d.cap →
    (runOps d ops).ll.length ≤ (runOps d ops).cap ∧ (runOps d ops).cap = d.cap
  | [], d, h => ⟨h, rfl⟩
  | op :: rest, d, h => by
    have hstep : (stepOp d op).ll.length ≤ (stepOp d op).cap ∧
        (stepOp d op).cap = d.cap := by
      cases op with
      | seenOp now key =>
        refine ⟨?_, (Seen_cap_ttl d now key).1⟩
        rw [stepOp, (Seen_cap_ttl d now key).1]
        exact le_trans (Seen_length_le d now key) h
      | markOp now key =>
        refine ⟨?_, (Mark_cap_ttl d now key).1⟩
        rw [stepOp, (Mark_cap_ttl d now key).1]
        exact Mark_length_le d now key h
    have hrec := runOps_invariant rest (stepOp d op) hstep.1
    exact ⟨hrec.1, by rw [runOps, hrec.2, hstep.2]⟩

end store

open store in
/-- C4: `Seen(key)` returns true iff an entry for the key exists whose
expiry is strictly after `now`; a query exactly at the expiry boundary
(`now = exp`) reports not seen; a found unexpired entry is promoted to
most-recently-used (moved to the list front, expiry unchanged); a found
expired entry is evicted from the store by the query (and, keys being
duplicate-free in reachable states, is then absent). -/
theorem C4_seen_contract (d : Dedup) (now : Nat) (key : Str) :
    ((d.Seen now key).1 = true ↔ ∃ e, findExp d.ll key = some e ∧ now < e)
    ∧ (∀ e, findExp d.ll key = some e → now = e → (d.Seen now key).1 = false)
    ∧ (∀ e, findExp d.ll key = some e → now < e →
        (d.Seen now key).2.ll = (key, e) :: removeKey d.ll key)
    ∧ (∀ e, findExp d.ll key = some e → e ≤ now →
        (d.Seen now key).2.ll = removeKey d.ll key
        ∧ ((keysOf d.ll).Nodup → findExp ((d.Seen now key).2.ll) key = none)) := by
  rcases h : findExp d.ll key with _ | e
  · refine ⟨?_, ?_, ?_, ?_⟩ <;> simp [Dedup.Seen, h]
  · by_cases hlt : now < e
    · refine ⟨?_, ?_, ?_, ?_⟩
      · constructor
        · intro _
          exact ⟨e, rfl, hlt⟩
        · intro _
          simp [Dedup.Seen, h, hlt]
      · intro e' he' heq
        injection he' with he2
        omega
      · intro e' he' _
        injection he' with he2
        subst he2
        simp [Dedup.Seen, h, hlt]
      · intro e' he' hge
        injection he' with he2
        omega
    · refine ⟨?_, ?_, ?_, ?_⟩
      · constructor
        · intro hc
          simp [Dedup.Seen, h, hlt] at hc
        · rintro ⟨e', he', hlt'⟩
          injection he' with he2
          omega
      · intro _ _ _
        simp [Dedup.Seen, h, hlt]
      · intro e' he' hlt'
        injection he' with he2
        omega
      · intro e' he' _
        refine ⟨by simp [Dedup.Seen, h, hlt], fun hnd => ?_⟩
        have hres : (d.Seen now key).2.ll = removeKey d.ll key := by
          simp [Dedup.Seen, h, hlt]
        rw [hres]
        exact findExp_removeKey_self d.ll key hnd

/-- Witness for C4 at a concrete store: an entry found expired (boundary
`now = exp`) is removed by the query. -/
theorem C4_seen_contract_witness :
    (({ cap := 2, ttl := 5, ll := [(str "k", 3)] } : store.Dedup).Seen 3
        (str "k")).2.ll = store.removeKey [(str "k", 3)] (str "k")
    ∧ store.findExp ((({ cap := 2, ttl := 5, ll := [(str "k", 3)] } :
        store.Dedup).Seen 3 (str "k")).2.ll) (str "k") = none :=
  ⟨((C4_seen_contract _ 3 (str "k")).2.2.2 3 (by decide) (by decide)).1,
    ((C4_seen_contract _ 3 (str "k")).2.2.2 3 (by decide) (by decide)).2 (by decide)⟩

open store in
/-- C5: `NewDedup` defaults a non-positive capacity to 10000 keys and a
non-positive TTL to 24 hours; every sequence of Seen/Mark operations keeps
the number of stored keys within capacity; and when an insertion evicts,
it drops a suffix of the recency order, i.e. the least-recently-touched
entries go first. -/
theorem C5_capacity_bound (maxKeys ttl : Int) (ops : List DedupOp) :
    ((NewDedup maxKeys ttl).cap = if maxKeys ≤ 0 then 10000 else maxKeys.toNat)
    ∧ ((NewDedup maxKeys ttl).ttl = if ttl ≤ 0 then 86400000000000 else ttl.toNat)
    ∧ (runOps (NewDedup maxKeys ttl) ops).ll.length ≤ (NewDedup maxKeys ttl).cap
    ∧ (∀ (d : Dedup) (now : Nat) (key : Str), findExp d.ll key = none →
        ∃ dropped, (d.Mark now key).ll ++ dropped = (key, now + d.ttl) :: d.ll) := by
  refine ⟨rfl, rfl, ?_, ?_⟩
  · have h0 : (NewDedup maxKeys ttl).ll.length ≤ (NewDedup maxKeys ttl).cap := by
      simp [NewDedup]
    have h := runOps_invariant ops (NewDedup maxKeys ttl) h0
    omega
  · intro d now key h
    simp only [Dedup.Mark, h]
    obtain ⟨t1, ht1⟩ :=
      sweepTail_extend now (evictOver d.cap ((key, now + d.ttl) :: d.ll))
    refine ⟨t1 ++ ((key, now + d.ttl) :: d.ll).drop d.cap, ?_⟩
    rw [← List.append_assoc, ht1, evictOver, List.take_append_drop]

/-- Witness for C5 at concrete values: defaults applied for non-positive
configuration, capacity bound after six operations on a store of capacity
two, and the suffix-eviction shape of one insertion. -/
theorem C5_capacity_bound_witness :
    ((store.NewDedup (-1) 0).cap = 10000 ∧ (store.NewDedup (-1) 0).ttl = 86400000000000)
    ∧ (store.runOps (store.NewDedup 2 10)
        [.markOp 0 (str "a"), .markOp 0 (str "b"), .markOp 0 (str "c"),
         .seenOp 1 (str "a"), .markOp 1 (str "d"), .markOp 1 (str "e")]).ll.length
        ≤ (store.NewDedup 2 10).cap
    ∧ (∃ dropped,
        (({ cap := 1, ttl := 7, ll := [(str "old", 9)] } : store.Dedup).Mark 2
            (str "new")).ll ++ dropped
          = (str "new", 2 + 7) :: [(str "old", 9)]) := by
  have h1 := C5_capacity_bound (-1) 0 []
  have h2 := C5_capacity_bound 2 10
    [.markOp 0 (str "a"), .markOp 0 (str "b"), .markOp 0 (str "c"),
     .seenOp 1 (str "a"), .markOp 1 (str "d"), .markOp 1 (str "e")]
  refine ⟨⟨by rw [h1.1]; decide, by rw [h1.2.1]; decide⟩, h2.2.2.1, ?_⟩
  exact h2.2.2.2 { cap := 1, ttl := 7, ll := [(str "old", 9)] } 2 (str "new")
    (by decide)

namespace store

/-- The sweep walks over an unexpired entry: everything in front of it is
untouched and only the part behind it keeps being swept. -/
theorem sweepTail_middle (now : Nat) (a b : List Entry) (k : Str) (e : Nat)
    (he : now < e) :
    sweepTail now (a ++ (k, e) :: b) = a ++ (k, e) :: sweepTail now b := by
  have hp : (decide ((k, e).2 ≤ now)) = false := by
    simp
    omega
  simp only [sweepTail, List.reverse_append, List.reverse_cons, List.append_assoc]
  rw [List.dropWhile_append]
  split
  · rename_i hemp
    have hbrev : List.dropWhile (fun en => decide (en.2 ≤ now)) b.reverse = [] := by
      revert hemp
      cases List.dropWhile (fun en => decide (en.2 ≤ now)) b.reverse <;> simp
    rw [List.singleton_append, List.dropWhile_cons, hp]
    simp [hbrev]
  · rw [List.singleton_append, List.reverse_append, List.reverse_cons]
    simp

/-- After `Mark`, the marked key sits at the front with expiry `now + ttl`
(capacity at least one and a positive TTL keep the fresh entry alive
through eviction and sweep). -/
theorem Mark_head (d : Dedup) (now : Nat) (key : Str) (hcap : 1 ≤ d.cap)
    (httl : 1 ≤ d.ttl) :
    ∃ rest, (d.Mark now key).ll = (key, now + d.ttl) :: rest := by
  rcases h : findExp d.ll key with _ | e
  · obtain ⟨c, hc⟩ := Nat.exists_eq_add_of_le hcap
    have htake : evictOver d.cap ((key, now + d.ttl) :: d.ll)
        = (key, now + d.ttl) :: d.ll.take c := by
      rw [evictOver, hc, Nat.add_comm]
      simp [List.take_succ_cons]
    have hsweep := sweepTail_middle now [] (d.ll.take c) key (now + d.ttl)
      (by omega)
    refine ⟨sweepTail now (d.ll.take c), ?_⟩
    simp only [Dedup.Mark, h, htake]
    simpa using hsweep
  · exact ⟨removeKey d.ll key, by simp [Dedup.Mark, h]⟩

end store

open store in
/-- C6: `Mark` on an existing key refreshes its expiry to `now + ttl` and
moves it to the front (most-recently-used); and after any `Mark(key)`
at time `now`, `Seen(key)` is true at every time strictly before
`now + ttl` (store of positive capacity and TTL, no intervening
operations), so repeated marks keep the key seen until the most recent
mark's TTL expires. -/
theorem C6_mark_idempotence (d : Dedup) (now t0 : Nat) (key : Str) :
    (∀ e, findExp d.ll key = some e →
      (d.Mark now key).ll = (key, now + d.ttl) :: removeKey d.ll key)
    ∧ (1 ≤ d.cap → 1 ≤ d.ttl → t0 < now + d.ttl →
        ((d.Mark now key).Seen t0 key).1 = true) := by
  constructor
  · intro e he
    simp [Dedup.Mark, he]
  · intro hcap httl ht
    obtain ⟨rest, hr⟩ := Mark_head d now key hcap httl
    simp [Dedup.Seen, hr, findExp, ht]

/-- Witness for C6: a key marked at time 2 in a fresh store (capacity 2,
TTL 10) is still seen at time 11 < 2 + 10. -/
theorem C6_mark_idempotence_witness :
    (((store.NewDedup 2 10).Mark 2 (str "k")).Seen 11 (str "k")).1 = true :=
  (C6_mark_idempotence (store.NewDedup 2 10) 2 11 (str "k")).2 (by decide)
    (by decide) (by decide)

namespace util

variable {ε : Type}

/-- The loop never reports fewer calls than attempts already begun. -/
theorem retryGo_calls_ge (fn : Nat → Option ε) (cancel : Nat → Bool)
    (maxD : Nat) : ∀ (fuel i d : Nat) (ws : List Nat),
    i ≤ (retryGo fn cancel maxD fuel i d ws).calls
  | 0, i, d, ws => le_refl i
  | fuel + 1, i, d, ws => by
    by_cases hi : i = 0
    · subst hi
      rcases hfn : fn 0 with _ | e
      · simp [retryGo, hfn]
      · by_cases hfu : fuel = 0
        · simp [retryGo, hfn, hfu]
        · have hrec := retryGo_calls_ge fn cancel maxD fuel 1 (stepDelay maxD d) ws
          simp only [retryGo, if_pos rfl, hfn, if_neg hfu]
          omega
    · by_cases hc : cancel i = true
      · simp [retryGo, hi, hc]
      · rcases hfn : fn i with _ | e
        · simp [retryGo, hi, hc, hfn]
        · by_cases hfu : fuel = 0
          · simp [retryGo, hi, hc, hfn, hfu]
          · have hrec := retryGo_calls_ge fn cancel maxD fuel (i + 1)
              (stepDelay maxD d) (ws ++ [d])
            simp only [retryGo, if_neg hi, if_neg hc, hfn, if_neg hfu]
            omega

/-- The loop performs at most `fuel` further calls. -/
theorem retryGo_calls_le (fn : Nat → Option ε) (cancel : Nat → Bool)
    (maxD : Nat) : ∀ (fuel i d : Nat) (ws : List Nat),
    (retryGo fn cancel maxD fuel i d ws).calls ≤ i + fuel
  | 0, i, d, ws => by simp [retryGo]
  | fuel + 1, i, d, ws => by
    by_cases hi : i = 0
    · subst hi
      rcases hfn : fn 0 with _ | e
      · simp [retryGo, hfn]
      · by_cases hfu : fuel = 0
        · simp [retryGo, hfn, hfu]
        · have hrec := retryGo_calls_le fn cancel maxD fuel 1 (stepDelay maxD d) ws
          have hgoal : retryGo fn cancel maxD (fuel + 1) 0 d ws
              = retryGo fn cancel maxD fuel 1 (stepDelay maxD d) ws := by
            simp [retryGo, hfn, hfu]
          rw [hgoal]
          omega
    · by_cases hc : cancel i = true
      · simp [retryGo, hi, hc]
      · rcases hfn : fn i with _ | e
        · simp [retryGo, hi, hc, hfn]
        · by_cases hfu : fuel = 0
          · simp [retryGo, hi, hc, hfn, hfu]
          · have hrec := retryGo_calls_le fn cancel maxD fuel (i + 1)
              (stepDelay maxD d) (ws ++ [d])
            simp only [retryGo, if_neg hi, if_neg hc, hfn, if_neg hfu]
            omega

/-- One failed, non-cancelled, non-final iteration of the loop (for an
attempt index of at least 1, i.e. after a completed wait). -/
theorem retryGo_step_failed (fn : Nat → Option ε) (cancel : Nat → Bool)
    (maxD fuel i d : Nat) (ws : List Nat) (e : ε) (hi : 1 ≤ i)
    (hc : cancel i = false) (hf : fn i = some e) (hfuel : 1 ≤ fuel) :
    retryGo fn cancel maxD (fuel + 1) i d ws
      = retryGo fn cancel maxD fuel (i + 1) (stepDelay maxD d) (ws ++ [d]) := by
  simp [retryGo, Nat.pos_iff_ne_zero.mp hi, hc, hf, Nat.pos_iff_ne_zero.mp hfuel]

/-- Running `m` failed, non-cancelled iterations advances the loop by `m`
attempts, doubling the delay (capped) and recording each wait. -/
theorem retryGo_progress (fn : Nat → Option ε) (cancel : Nat → Bool)
    (maxD : Nat) : ∀ (m fuel i d : Nat) (ws : List Nat), m < fuel → 1 ≤ i →
    (∀ j, i ≤ j → j < i + m → cancel j = false ∧ fn j ≠ none) →
    retryGo fn cancel maxD fuel i d ws
      = retryGo fn cancel maxD (fuel - m) (i + m) ((stepDelay maxD)^[m] d)
          (ws ++ waitsList maxD d m)
  | 0, fuel, i, d, ws, hm, hi, hj => by simp [waitsList]
  | m + 1, fuel, i, d, ws, hm, hi, hj => by
    obtain ⟨f, rfl⟩ : ∃ f, fuel = f + 1 := ⟨fuel - 1, by omega⟩
    have hji := hj i (le_refl i) (by omega)
    obtain ⟨e, he⟩ : ∃ e, fn i = some e := by
      rcases hfn : fn i with _ | e
      · exact absurd hfn hji.2
      · exact ⟨e, rfl⟩
    rw [retryGo_step_failed fn cancel maxD f i d ws e hi hji.1 he (by omega)]
    rw [retryGo_progress fn cancel maxD m f (i + 1) (stepDelay maxD d) (ws ++ [d])
      (by omega) (by omega) (fun j h1 h2 => hj j (by omega) (by omega))]
    have harith1 : f - m = f + 1 - (m + 1) := by omega
    have harith2 : i + 1 + m = i + (m + 1) := by omega
    rw [harith1, harith2, ← Function.iterate_succ_apply]
    have hws : ws ++ [d] ++ waitsList maxD (stepDelay maxD d) m
        = ws ++ waitsList maxD d (m + 1) := by
      rw [List.append_assoc, List.singleton_append]
      rfl
    rw [hws]

/-- Cancellation observed during the wait before attempt `i` aborts the
loop at once: the result is the cancellation, and no further call of the
operation happens. -/
theorem retryGo_cancel_step (fn : Nat → Option ε) (cancel : Nat → Bool)
    (maxD fuel i d : Nat) (ws : List Nat) (hi : 1 ≤ i) (hc : cancel i = true)
    (hfuel : 1 ≤ fuel) :
    retryGo fn cancel maxD fuel i d ws = ⟨.cancelled, i, ws⟩ := by
  obtain ⟨f, rfl⟩ : ∃ f, fuel = f + 1 := ⟨fuel - 1, by omega⟩
  simp [retryGo, Nat.pos_iff_ne_zero.mp hi, hc]

/-- A successful attempt after a completed wait ends the loop at once. -/
theorem retryGo_success_step (fn : Nat → Option ε) (cancel : Nat → Bool)
    (maxD fuel i d : Nat) (ws : List Nat) (hi : 1 ≤ i) (hc : cancel i = false)
    (hf : fn i = none) (hfuel : 1 ≤ fuel) :
    retryGo fn cancel maxD fuel i d ws = ⟨.ok, i + 1, ws ++ [d]⟩ := by
  obtain ⟨f, rfl⟩ : ∃ f, fuel = f + 1 := ⟨fuel - 1, by omega⟩
  simp [retryGo, Nat.pos_iff_ne_zero.mp hi, hc, hf]

/-- A failed final attempt returns the last failure. -/
theorem retryGo_failfinal_step (fn : Nat → Option ε) (cancel : Nat → Bool)
    (maxD i d : Nat) (ws : List Nat) (e : ε) (hi : 1 ≤ i)
    (hc : cancel i = false) (hf : fn i = some e) :
    retryGo fn cancel maxD 1 i d ws = ⟨.failed e, i + 1, ws ++ [d]⟩ := by
  simp [retryGo, Nat.pos_iff_ne_zero.mp hi, hc, hf]

/-- Unfolding `Retry` when the first attempt fails and at least two
attempts are configured. -/
theorem Retry_unfold_ge2 (fn : Nat → Option ε) (cancel : Nat → Bool)
    (attempts : Int) (init maxD : Nat) (e : ε) (hatt : 2 ≤ attempts)
    (hf : fn 0 = some e) :
    Retry fn cancel attempts init maxD
      = retryGo fn cancel maxD (attempts.toNat - 1) 1 (stepDelay maxD init) [] := by
  have hN : 2 ≤ attempts.toNat := by omega
  obtain ⟨m, hm⟩ : ∃ m, attempts.toNat = m + 1 := ⟨attempts.toNat - 1, by omega⟩
  have hnle : ¬ attempts ≤ 1 := by omega
  simp only [Retry, if_neg hnle, hm]
  have hm1 : m ≠ 0 := by omega
  simp [retryGo, hf, hm1]

/-- Unfolding `Retry` when the first attempt succeeds. -/
theorem Retry_first_success (fn : Nat → Option ε) (cancel : Nat → Bool)
    (attempts : Int) (init maxD : Nat) (hatt : 2 ≤ attempts)
    (hf : fn 0 = none) :
    Retry fn cancel attempts init maxD = ⟨.ok, 1, []⟩ := by
  obtain ⟨m, hm⟩ : ∃ m, attempts.toNat = m + 1 := ⟨attempts.toNat - 1, by omega⟩
  have hnle : ¬ attempts ≤ 1 := by omega
  simp [Retry, if_neg hnle, hm, retryGo, hf]

/-- The delay update never exceeds the cap, once below or at it. -/
theorem stepDelay_le (maxD d : Nat) (h : d ≤ maxD) : stepDelay maxD d ≤ maxD := by
  unfold stepDelay
  split
  · split <;> omega
  · omega

/-- All waits recorded by the loop stay at or below the cap, provided the
current delay and the already-recorded waits do. -/
theorem retryGo_waits_le (fn : Nat → Option ε) (cancel : Nat → Bool)
    (maxD : Nat) : ∀ (fuel i d : Nat) (ws : List Nat), d ≤ maxD →
    (∀ w ∈ ws, w ≤ maxD) →
    ∀ w ∈ (retryGo fn cancel maxD fuel i d ws).waits, w ≤ maxD
  | 0, i, d, ws, hd, hws => by simpa [retryGo] using hws
  | fuel + 1, i, d, ws, hd, hws => by
    have hws2 : ∀ w ∈ ws ++ [d], w ≤ maxD := by
      intro w hw
      rcases List.mem_append.mp hw with h | h
      · exact hws w h
      · simp at h
        omega
    by_cases hi : i = 0
    · subst hi
      rcases hfn : fn 0 with _ | e
      · simpa [retryGo, hfn] using hws
      · by_cases hfu : fuel = 0
        · simpa [retryGo, hfn, hfu] using hws
        · have hrec := retryGo_waits_le fn cancel maxD fuel 1 (stepDelay maxD d) ws
            (stepDelay_le maxD d hd) hws
          simpa only [retryGo, if_pos rfl, hfn, if_neg hfu] using hrec
    · by_cases hc : cancel i = true
      · simpa [retryGo, hi, hc] using hws
      · rcases hfn : fn i with _ | e
        · simpa [retryGo, hi, hc, hfn] using hws2
        · by_cases hfu : fuel = 0
          · simpa [retryGo, hi, hc, hfn, hfu] using hws2
          · have hrec := retryGo_waits_le fn cancel maxD fuel (i + 1)
              (stepDelay maxD d) (ws ++ [d]) (stepDelay_le maxD d hd) hws2
            simpa only [retryGo, if_neg hi, if_neg hc, hfn, if_neg hfu] using hrec

/-- Appending the next wait extends the delay list. -/
theorem waitsList_snoc (maxD : Nat) : ∀ (m d : Nat),
    waitsList maxD d (m + 1) = waitsList maxD d m ++ [(stepDelay maxD)^[m] d]
  | 0, d => by simp [waitsList]
  | m + 1, d => by
    rw [waitsList, waitsList_snoc maxD m (stepDelay maxD d), waitsList,
      Function.iterate_succ_apply, List.cons_append]

end util

open util in
/-- C7 (amended): with no cancellation, `Retry` with `N <= 1` executes the
operation exactly once with no wait; with `N >= 2` it executes the
operation between 1 and `N` times, returns at the first success, returns
the last failure when all `N` attempts fail, and waits exactly the delays
`waitsList` before each retry and never after the final attempt, where
the delay after each failed attempt is doubled and clamped to the cap
while it is below the cap and left unchanged otherwise — in particular
every waited delay stays at or below the cap whenever the initial delay
does (an initial delay above the cap is kept as-is). -/
theorem C7_retry_backoff {ε : Type} (fn : Nat → Option ε) (attempts : Int)
    (init maxD : Nat) :
    (attempts ≤ 1 →
      (Retry fn noCancel attempts init maxD).calls = 1
      ∧ (Retry fn noCancel attempts init maxD).waits = []
      ∧ (fn 0 = none → (Retry fn noCancel attempts init maxD).result = .ok)
      ∧ (∀ e, fn 0 = some e →
          (Retry fn noCancel attempts init maxD).result = .failed e))
    ∧ (2 ≤ attempts →
        (1 ≤ (Retry fn noCancel attempts init maxD).calls
          ∧ (Retry fn noCancel attempts init maxD).calls ≤ attempts.toNat)
        ∧ (∀ e, (∀ j, j < attempts.toNat → fn j ≠ none) →
            fn (attempts.toNat - 1) = some e →
            Retry fn noCancel attempts init maxD
              = ⟨.failed e, attempts.toNat,
                  waitsList maxD (stepDelay maxD init) (attempts.toNat - 1)⟩)
        ∧ (∀ k, k < attempts.toNat → fn k = none → (∀ j, j < k → fn j ≠ none) →
            Retry fn noCancel attempts init maxD
              = ⟨.ok, k + 1, waitsList maxD (stepDelay maxD init) k⟩)
        ∧ (init ≤ maxD →
            ∀ w ∈ (Retry fn noCancel attempts init maxD).waits, w ≤ maxD)) := by
  constructor
  · intro h1
    rcases hfn : fn 0 with _ | e0
    · refine ⟨by simp [Retry, if_pos h1, hfn], by simp [Retry, if_pos h1, hfn],
        fun _ => by simp [Retry, if_pos h1, hfn], fun e' he' => ?_⟩
      simp at he'
    · refine ⟨by simp [Retry, if_pos h1, hfn], by simp [Retry, if_pos h1, hfn],
        fun h => ?_, fun e' he' => ?_⟩
      · simp at h
      · injection he' with he2
        subst he2
        simp [Retry, if_pos h1, hfn]
  · intro h2
    refine ⟨?_, ?_, ?_, ?_⟩
    · rcases hfn : fn 0 with _ | e0
      · rw [Retry_first_success fn noCancel attempts init maxD h2 hfn]
        refine ⟨le_refl 1, ?_⟩
        show (1 : Nat) ≤ attempts.toNat
        omega
      · rw [Retry_unfold_ge2 fn noCancel attempts init maxD e0 h2 hfn]
        have hge := retryGo_calls_ge fn noCancel maxD (attempts.toNat - 1) 1
          (stepDelay maxD init) []
        have hle := retryGo_calls_le fn noCancel maxD (attempts.toNat - 1) 1
          (stepDelay maxD init) []
        omega
    · intro e hall hlast
      obtain ⟨e0, hf0⟩ : ∃ e0, fn 0 = some e0 := by
        rcases h0 : fn 0 with _ | x
        · exact absurd h0 (hall 0 (by omega))
        · exact ⟨x, rfl⟩
      rw [Retry_unfold_ge2 fn noCancel attempts init maxD e0 h2 hf0]
      rw [retryGo_progress fn noCancel maxD (attempts.toNat - 2)
        (attempts.toNat - 1) 1 (stepDelay maxD init) [] (by omega) (by omega)
        (fun j hj1 hj2 => ⟨rfl, hall j (by omega)⟩)]
      have ha1 : attempts.toNat - 1 - (attempts.toNat - 2) = 1 := by omega
      have ha2 : 1 + (attempts.toNat - 2) = attempts.toNat - 1 := by omega
      rw [ha1, ha2]
      rw [retryGo_failfinal_step fn noCancel maxD (attempts.toNat - 1)
        ((stepDelay maxD)^[attempts.toNat - 2] (stepDelay maxD init))
        ([] ++ waitsList maxD (stepDelay maxD init) (attempts.toNat - 2)) e
        (by omega) rfl hlast]
      have hsnoc := waitsList_snoc maxD (attempts.toNat - 2) (stepDelay maxD init)
      have ha3 : attempts.toNat - 2 + 1 = attempts.toNat - 1 := by omega
      rw [ha3] at hsnoc
      have ha4 : attempts.toNat - 1 + 1 = attempts.toNat := by omega
      rw [List.nil_append, ← hsnoc, ha4]
    · intro k hk hke hfprev
      rcases Nat.eq_zero_or_pos k with hk0 | hkpos
      · subst hk0
        rw [Retry_first_success fn noCancel attempts init maxD h2 hke]
        simp [waitsList]
      · obtain ⟨e0, hf0⟩ : ∃ e0, fn 0 = some e0 := by
          rcases h0 : fn 0 with _ | x
          · exact absurd h0 (hfprev 0 hkpos)
          · exact ⟨x, rfl⟩
        rw [Retry_unfold_ge2 fn noCancel attempts init maxD e0 h2 hf0]
        rw [retryGo_progress fn noCancel maxD (k - 1) (attempts.toNat - 1) 1
          (stepDelay maxD init) [] (by omega) (by omega)
          (fun j hj1 hj2 => ⟨rfl, hfprev j (by omega)⟩)]
        have ha2 : 1 + (k - 1) = k := by omega
        rw [ha2]
        rw [retryGo_success_step fn noCancel maxD
          (attempts.toNat - 1 - (k - 1)) k
          ((stepDelay maxD)^[k - 1] (stepDelay maxD init))
          ([] ++ waitsList maxD (stepDelay maxD init) (k - 1))
          (by omega) rfl hke (by omega)]
        have hsnoc := waitsList_snoc maxD (k - 1) (stepDelay maxD init)
        have ha3 : k - 1 + 1 = k := by omega
        rw [ha3] at hsnoc
        rw [List.nil_append, ← hsnoc]
    · intro hinit w hw
      have hnle : ¬ attempts ≤ 1 := by omega
      simp only [Retry, if_neg hnle] at hw
      exact retryGo_waits_le fn noCancel maxD attempts.toNat 0 init [] hinit
        (by simp) w hw

/-- Counterexample to C7 as stated: with initial delay 3 above the cap 1,
the single wait performed before the retry is 3, not capped at the
maximum delay 1. -/
theorem C7_retry_backoff_cex :
    (util.Retry (fun _ => some 0) util.noCancel 2 3 1).waits = [3]
    ∧ ¬ (∀ w ∈ (util.Retry (fun _ => some 0) util.noCancel 2 3 1).waits, w ≤ 1) := by
  decide

/-- Witness for C7 at concrete values: three attempts that all fail, with
initial delay 1 and cap 4, return the last failure after calls 0,1,2 with
waits 2 then 4. -/
theorem C7_retry_backoff_witness :
    util.Retry (fun j => some j) util.noCancel 3 1 4
      = ⟨.failed 2, 3, util.waitsList 4 (util.stepDelay 4 1) 2⟩
    ∧ (util.Retry (fun j => some j) util.noCancel 3 1 4).waits = [2, 4] := by
  have h := (C7_retry_backoff (fun j => some j) 3 1 4).2 (by decide)
  refine ⟨h.2.1 2 (fun j hj => by simp) (by decide), ?_⟩
  rw [h.2.1 2 (fun j hj => by simp) (by decide)]
  decide

open util in
/-- C8: when the cancellation signal fires during the wait before attempt
`i` (all earlier waits uncancelled, all earlier attempts failed), `Retry`
returns the cancellation as its failure immediately: the trace records
exactly the `i` attempts made before that wait and no more, and only the
`i - 1` completed waits. -/
theorem C8_retry_cancel_abort {ε : Type} (fn : Nat → Option ε)
    (cancel : Nat → Bool) (attempts : Int) (init maxD : Nat) (i : Nat)
    (hatt : 2 ≤ attempts) (hi1 : 1 ≤ i) (hiN : i < attempts.toNat)
    (hc : cancel i = true) (hcprev : ∀ j, 1 ≤ j → j < i → cancel j = false)
    (hfprev : ∀ j, j < i → fn j ≠ none) :
    Retry fn cancel attempts init maxD
      = ⟨.cancelled, i, waitsList maxD (stepDelay maxD init) (i - 1)⟩ := by
  obtain ⟨e0, hf0⟩ : ∃ e0, fn 0 = some e0 := by
    rcases h0 : fn 0 with _ | x
    · exact absurd h0 (hfprev 0 (by omega))
    · exact ⟨x, rfl⟩
  rw [Retry_unfold_ge2 fn cancel attempts init maxD e0 hatt hf0]
  rw [retryGo_progress fn cancel maxD (i - 1) (attempts.toNat - 1) 1
    (stepDelay maxD init) [] (by omega) (by omega)
    (fun j hj1 hj2 => ⟨hcprev j hj1 (by omega), hfprev j (by omega)⟩)]
  have ha2 : 1 + (i - 1) = i := by omega
  rw [ha2]
  rw [retryGo_cancel_step fn cancel maxD (attempts.toNat - 1 - (i - 1)) i
    ((stepDelay maxD)^[i - 1] (stepDelay maxD init))
    ([] ++ waitsList maxD (stepDelay maxD init) (i - 1)) hi1 hc (by omega)]
  rw [List.nil_append]

/-- Witness for C8: cancellation firing during the wait before attempt 2
(of 4 configured) aborts with a cancellation result after exactly 2 calls
and one completed wait of 2. -/
theorem C8_retry_cancel_abort_witness :
    util.Retry (fun _ => some 0) (fun j => decide (j = 2)) 4 1 100
      = ⟨.cancelled, 2, util.waitsList 100 (util.stepDelay 100 1) 1⟩
    ∧ (util.Retry (fun _ => some 0) (fun j => decide (j = 2)) 4 1 100).calls = 2 := by
  have h := C8_retry_cancel_abort (fun _ => some (0 : Nat))
    (fun j => decide (j = 2)) 4 1 100 2 (by decide) (by decide) (by decide)
    (by decide) (fun j hj1 hj2 => by
      have hj : j = 1 := by omega
      subst hj
      decide)
    (fun j hj => by simp)
  exact ⟨h, by rw [h]⟩

open util in
/-- C10: `Retry` always invokes the operation at least once, for every
cancellation behaviour — including a context already cancelled before the
call — and on the `N <= 1` path the cancellation signal is never consulted
at all (the result is the same for every cancellation function). -/
theorem C10_retry_always_first_attempt {ε : Type} (fn : Nat → Option ε)
    (cancel : Nat → Bool) (attempts : Int) (init maxD : Nat) :
    1 ≤ (Retry fn cancel attempts init maxD).calls
    ∧ (attempts ≤ 1 → ∀ cancel2 : Nat → Bool,
        Retry fn cancel2 attempts init maxD = Retry fn cancel attempts init maxD) := by
  constructor
  · by_cases h1 : attempts ≤ 1
    · rcases hfn : fn 0 with _ | e <;> simp [Retry, if_pos h1, hfn]
    · have h2 : 2 ≤ attempts := by omega
      rcases hfn : fn 0 with _ | e0
      · rw [Retry_first_success fn cancel attempts init maxD h2 hfn]
      · rw [Retry_unfold_ge2 fn cancel attempts init maxD e0 h2 hfn]
        exact retryGo_calls_ge fn cancel maxD (attempts.toNat - 1) 1
          (stepDelay maxD init) []
  · intro h1 cancel2
    simp [Retry, if_pos h1]

/-- Witness for C10: with a context cancelled from the start and a single
configured attempt, the operation still runs once, and the result equals
the never-cancelled run. -/
theorem C10_retry_always_first_attempt_witness :
    1 ≤ (util.Retry (fun _ => some 0) (fun _ => true) 1 5 10).calls
    ∧ util.Retry (fun _ => some 0) util.noCancel 1 5 10
        = util.Retry (fun _ => some 0) (fun _ => true) 1 5 10 :=
  ⟨(C10_retry_always_first_attempt (fun _ => some 0) (fun _ => true) 1 5 10).1,
    (C10_retry_always_first_attempt (fun _ => some 0) (fun _ => true) 1 5 10).2
      (by decide) util.noCancel⟩

open postprocess in
/-- C2 (amended): a keyword rule matches iff every configured (normalized)
substring is present, case-insensitively, in the title or in the summary —
each word individually within one of the two fields, not in their
concatenation; in particular a rule with words ["a","b"] does not match an
event whose title+summary contains only "a", and does match one containing
both "a" and "b" in any order and any case. -/
theorem C2_keyword_and_semantics (words : List Str) (e : model.Event) :
    (kwMatched words (strToLower e.title) (strToLower e.summary) = true
      ↔ ∀ w ∈ words, strContains (strToLower e.title) w = true
          ∨ strContains (strToLower e.summary) w = true)
    ∧ kwMatched [str "a", str "b"] (strToLower (str "a")) (strToLower (str "")) = false
    ∧ kwMatched [str "a", str "b"] (strToLower (str "B")) (strToLower (str "a")) = true := by
  refine ⟨?_, by decide, by decide⟩
  simp [kwMatched, List.all_eq_true]

/-- Counterexample to C2 as stated: for the one-word rule ["ab"] and the
event with title "a", summary "b", the word IS present in the
concatenation of title and summary, yet the code does not match (it tests
title and summary separately), and the configured rule's label is not
applied by `Apply`. -/
theorem C2_keyword_and_semantics_cex :
    postprocess.kwMatched [str "ab"] (strToLower fixtures.evAB.title)
        (strToLower fixtures.evAB.summary) = false
    ∧ postprocess.specKwMatched [str "ab"] fixtures.evAB.title fixtures.evAB.summary
        = true
    ∧ (postprocess.Apply fixtures.compileAlways fixtures.matchAlways [fixtures.evAB]
        ⟨[⟨[str "ab"], [(str "x", str "y")]⟩], [], []⟩).map model.Event.labels
        = [[]] := by
  decide

/-- Witness for C2: the rule word "tariff" is found (case-insensitively) in
the title of the fixture event, so the one-word rule matches. -/
theorem C2_keyword_and_semantics_witness :
    postprocess.kwMatched [str "tariff"] (strToLower fixtures.evA.title)
      (strToLower fixtures.evA.summary) = true := by
  rw [(C2_keyword_and_semantics [str "tariff"] fixtures.evA).1]
  intro w hw
  rw [List.mem_singleton] at hw
  subst hw
  left
  decide

namespace postprocess

/-- `compileAll` fails exactly when some configured pattern is rejected by
the compile oracle. -/
theorem compileAll_eq_none_iff (compileOk : Str → Bool) :
    ∀ rs : List config.RegexRule,
    compileAll compileOk rs = none ↔ ∃ r ∈ rs, compileOk r.expr = false
  | [] => by simp [compileAll]
  | r :: rest => by
    by_cases hc : compileOk r.expr = true
    · rcases hrest : compileAll compileOk rest with _ | rs2
      · have hrec := (compileAll_eq_none_iff compileOk rest).1 hrest
        simp only [compileAll, if_pos hc, hrest, true_iff]
        obtain ⟨r2, hr2, hbad⟩ := hrec
        exact ⟨r2, List.mem_cons_of_mem r hr2, hbad⟩
      · simp only [compileAll, if_pos hc, hrest]
        constructor
        · intro h
          cases h
        · rintro ⟨r2, hr2, hbad⟩
          rcases List.mem_cons.mp hr2 with heq | hr2
          · subst heq
            rw [hc] at hbad
            cases hbad
          · have h2 := (compileAll_eq_none_iff compileOk rest).2 ⟨r2, hr2, hbad⟩
            rw [h2] at hrest
            cases hrest
    · have hcf : compileOk r.expr = false := by
        cases h : compileOk r.expr
        · rfl
        · exact absurd h hc
      simp only [compileAll, if_neg hc, true_iff]
      exact ⟨r, List.mem_cons_self r rest, hcf⟩

/-- The apply-time regex normalization treats a compile failure exactly as
if the rule had been filtered out of the configuration. -/
theorem normRegexRules_filter (compileOk : Str → Bool) :
    ∀ rs : List config.RegexRule,
    normRegexRules compileOk rs
      = normRegexRules (fun _ => true) (rs.filter fun r => compileOk r.expr)
  | rs => by
    simp only [normRegexRules]
    rw [List.filter_filter]
    apply List.filter_congr
    intro r hr
    cases h : compileOk r.expr <;> simp [h]

end postprocess

open postprocess in
/-- C3 (amended): engine construction (`New`) fails exactly when some
configured regex pattern does not compile; but the rule-application path
actually invoked by the orchestrator is the package-level `Apply`, which
never fails and instead behaves as if every regex rule whose pattern fails
to compile had been silently removed from the configuration, per cycle. -/
theorem C3_construction_validation (compileOk : Str → Bool)
    (reMatch : Str → Str → Bool) (cfg : config.PostProcessConfig)
    (events : List model.Event) :
    (New compileOk cfg = none ↔ ∃ r ∈ cfg.regex, compileOk r.expr = false)
    ∧ Apply compileOk reMatch events cfg
      = Apply (fun _ => true) reMatch events
          { cfg with regex := cfg.regex.filter fun r => compileOk r.expr } := by
  constructor
  · rcases hall : compileAll compileOk cfg.regex with _ | regs
    · simp only [New, hall, true_iff]
      exact (compileAll_eq_none_iff compileOk cfg.regex).1 hall
    · simp only [New, hall]
      constructor
      · intro h
        cases h
      · intro hbad
        have h2 := (compileAll_eq_none_iff compileOk cfg.regex).2 hbad
        rw [h2] at hall
        cases hall
  · by_cases hev : events.isEmpty
    · simp [Apply, hev]
    · simp only [Apply, hev, if_neg, Bool.false_eq_true, if_false]
      rw [normRegexRules_filter]

/-- Counterexample to C3 as stated: with the syntactically invalid pattern
"(", construction (`New`) does fail, but the orchestrator's actual path
(`Apply`) does not reject the configuration — it silently drops the
malformed rule at apply time, observably: its output differs from the run
in which the same pattern compiles. -/
theorem C3_construction_validation_cex :
    postprocess.New fixtures.compileNotParen fixtures.cfgBadRegex = none
    ∧ postprocess.Apply fixtures.compileNotParen fixtures.matchAlways [fixtures.evA]
        fixtures.cfgBadRegex
      ≠ postprocess.Apply fixtures.compileAlways fixtures.matchAlways [fixtures.evA]
        fixtures.cfgBadRegex := by
  decide

/-- Witness for C3: construction fails on the concrete configuration whose
single regex pattern "(" is invalid. -/
theorem C3_construction_validation_witness :
    postprocess.New fixtures.compileNotParen fixtures.cfgBadRegex = none := by
  rw [(C3_construction_validation fixtures.compileNotParen fixtures.matchAlways
    fixtures.cfgBadRegex []).1]
  exact ⟨⟨str "title", str "(", [(str "x", str "y")]⟩, by decide, by decide⟩

namespace postprocess

/-- `Apply` never drops or duplicates events. -/
theorem Apply_length (compileOk : Str → Bool) (reMatch : Str → Str → Bool)
    (events : List model.Event) (cfg : config.PostProcessConfig) :
    (Apply compileOk reMatch events cfg).length = events.length := by
  by_cases h : events.isEmpty <;> simp [Apply, h]

end postprocess

namespace pipeline

open postprocess

/-- Whenever `pushStage` reports a pushed batch, that batch is the
enriched kept batch; it is nonempty; the delivered counter advances by
the batch size exactly when every sink push succeeded; and on any failure
all sink errors are collected while nothing is counted. -/
theorem pushStage_contract (compileOk : Str → Bool) (reMatch : Str → Str → Bool)
    (cfgPost : config.PostProcessConfig)
    (sinks : List (List model.Event → Option Str)) (kept : List model.Event)
    (d1 : Option store.Dedup) (evs2 : List model.Event)
    (hp : (pushStage compileOk reMatch cfgPost sinks kept d1).pushed = some evs2) :
    0 < evs2.length
    ∧ ((pushStage compileOk reMatch cfgPost sinks kept d1).delivered = evs2.length
        ↔ ∀ sk ∈ sinks, sk evs2 = none)
    ∧ ((∃ sk ∈ sinks, sk evs2 ≠ none) →
        (pushStage compileOk reMatch cfgPost sinks kept d1).delivered = 0
        ∧ (pushStage compileOk reMatch cfgPost sinks kept d1).errs
            = sinks.filterMap fun sk => sk evs2) := by
  by_cases hk : kept.isEmpty
  · simp [pushStage, hk] at hp
  · have hkf : kept.isEmpty = false := by
      cases h : kept.isEmpty
      · rfl
      · exact absurd h hk
    have hlen : (Apply compileOk reMatch kept cfgPost).length = kept.length :=
      Apply_length compileOk reMatch kept cfgPost
    have hKpos : 0 < kept.length := by
      cases kept
      · simp at hkf
      · simp
    by_cases he : (sinks.filterMap fun sk =>
        sk (Apply compileOk reMatch kept cfgPost)).isEmpty
    · have hev : evs2 = Apply compileOk reMatch kept cfgPost := by
        simp [pushStage, hkf, he] at hp
        exact hp.symm
      subst hev
      have hall : ∀ sk ∈ sinks, sk (Apply compileOk reMatch kept cfgPost) = none :=
        List.filterMap_eq_nil_iff.1 (List.isEmpty_iff.1 he)
      refine ⟨by omega, ?_, ?_⟩
      · simp only [pushStage, hkf, Bool.false_eq_true, if_false, he, if_true]
        exact iff_of_true trivial hall
      · rintro ⟨sk, hsk, hne⟩
        exact absurd (hall sk hsk) hne
    · have hef : (sinks.filterMap fun sk =>
          sk (Apply compileOk reMatch kept cfgPost)).isEmpty = false := by
        cases h : (sinks.filterMap fun sk =>
            sk (Apply compileOk reMatch kept cfgPost)).isEmpty
        · rfl
        · exact absurd h he
      have hev : evs2 = Apply compileOk reMatch kept cfgPost := by
        simp [pushStage, hkf, hef] at hp
        exact hp.symm
      subst hev
      refine ⟨by omega, ?_, fun _ => ?_⟩
      · constructor
        · intro h0
          simp only [pushStage, hkf, Bool.false_eq_true, if_false, hef] at h0
          omega
        · intro hall
          have hnil : (sinks.filterMap fun sk =>
              sk (Apply compileOk reMatch kept cfgPost)) = [] :=
            List.filterMap_eq_nil_iff.2 hall
          rw [hnil] at hef
          simp at hef
      · constructor
        · simp [pushStage, hkf, hef]
        · simp [pushStage, hkf, hef]

end pipeline

open pipeline in
/-- C9: whenever a source's cycle reaches the push stage with batch
`evs2`, the per-source delivered-event counter advances by the batch size
exactly when every configured sink's push succeeded; and if one or more
sink pushes fail, every failure is collected and reported while no events
are counted as delivered for that source in that cycle. -/
theorem C9_sink_failure_isolation (compileOk : Str → Bool)
    (reMatch : Str → Str → Bool) (cfgPost : config.PostProcessConfig)
    (sinks : List (List model.Event → Option Str)) (now : Nat)
    (dedup0 : Option store.Dedup) (evs0 evs2 : List model.Event)
    (hp : (processSource compileOk reMatch cfgPost sinks now dedup0
          (some evs0)).pushed = some evs2) :
    0 < evs2.length
    ∧ ((processSource compileOk reMatch cfgPost sinks now dedup0
          (some evs0)).delivered = evs2.length
        ↔ ∀ sk ∈ sinks, sk evs2 = none)
    ∧ ((∃ sk ∈ sinks, sk evs2 ≠ none) →
        (processSource compileOk reMatch cfgPost sinks now dedup0
            (some evs0)).delivered = 0
        ∧ (processSource compileOk reMatch cfgPost sinks now dedup0
              (some evs0)).errs = sinks.filterMap fun sk => sk evs2) := by
  rcases dedup0 with _ | dd
  · exact pushStage_contract compileOk reMatch cfgPost sinks evs0 none evs2 hp
  · exact pushStage_contract compileOk reMatch cfgPost sinks
      (dedupFilter dd now evs0).1 (some (dedupFilter dd now evs0).2) evs2 hp

/-- Witness for C9 at concrete values: one failing sink and one succeeding
sink; the batch is pushed, the failure is reported, and nothing is
delivered. -/
theorem C9_sink_failure_isolation_witness :
    (pipeline.processSource fixtures.compileAlways fixtures.matchAlways
        fixtures.cfgEmpty [fixtures.failSink, fixtures.okSink] 0 none
        [fixtures.evA]).delivered = 0
    ∧ (pipeline.processSource fixtures.compileAlways fixtures.matchAlways
        fixtures.cfgEmpty [fixtures.failSink, fixtures.okSink] 0 none
        [fixtures.evA]).errs = [str "boom"] := by
  have h := (C9_sink_failure_isolation fixtures.compileAlways fixtures.matchAlways
    fixtures.cfgEmpty [fixtures.failSink, fixtures.okSink] 0 none [fixtures.evA]
    [fixtures.evA] (by decide)).2.2
    ⟨fixtures.failSink, by simp, by simp [fixtures.failSink]⟩
  refine ⟨h.1, ?_⟩
  rw [h.2]
  decide

namespace store

/-- Keys of a sublist are keys of the list. -/
theorem keys_not_mem_of_sublist {l2 l : List Entry} (h : l2.Sublist l)
    {k : Str} (hk : k ∉ keysOf l) : k ∉ keysOf l2 :=
  fun hmem => hk ((h.map Prod.fst).subset hmem)

/-- The sweep yields a sublist. -/
theorem sweepTail_sublist (now : Nat) (l : List Entry) :
    (sweepTail now l).Sublist l := by
  obtain ⟨t, ht⟩ := sweepTail_extend now l
  have h2 := List.sublist_append_left (sweepTail now l) t
  rwa [ht] at h2

/-- `Seen` preserves duplicate-freedom of keys. -/
theorem nodup_keys_seen (d : Dedup) (now : Nat) (k : Str)
    (hnod : (keysOf d.ll).Nodup) : (keysOf ((d.Seen now k).2).ll).Nodup := by
  have hsub : (keysOf (removeKey d.ll k)).Nodup :=
    ((removeKey_sublist d.ll k).map Prod.fst).nodup hnod
  rcases h : findExp d.ll k with _ | e
  · simpa [Dedup.Seen, h] using hnod
  · by_cases hlt : now < e
    · simp only [Dedup.Seen, h, if_pos hlt]
      simp only [keysOf, List.map_cons, List.nodup_cons]
      exact ⟨not_mem_keys_removeKey d.ll k hnod, hsub⟩
    · simpa [Dedup.Seen, h, hlt] using hsub

/-- `Mark` preserves duplicate-freedom of keys. -/
theorem nodup_keys_mark (d : Dedup) (now : Nat) (k : Str)
    (hnod : (keysOf d.ll).Nodup) : (keysOf ((d.Mark now k).ll)).Nodup := by
  rcases h : findExp d.ll k with _ | e
  · have hknot : k ∉ keysOf d.ll := (findExp_eq_none_iff d.ll k).1 h
    have hpush : (keysOf ((k, now + d.ttl) :: d.ll)).Nodup := by
      simp only [keysOf, List.map_cons, List.nodup_cons]
      exact ⟨hknot, hnod⟩
    have hsub : (sweepTail now (evictOver d.cap ((k, now + d.ttl) :: d.ll))).Sublist
        ((k, now + d.ttl) :: d.ll) :=
      (sweepTail_sublist now _).trans (List.take_sublist _ _)
    simp only [Dedup.Mark, h]
    exact (hsub.map Prod.fst).nodup hpush
  · simp only [Dedup.Mark, h]
    simp only [keysOf, List.map_cons, List.nodup_cons]
    exact ⟨not_mem_keys_removeKey d.ll k hnod,
      ((removeKey_sublist d.ll k).map Prod.fst).nodup hnod⟩

/-- Lookup of the distinguished key in a segmented list. -/
theorem findExp_seg : ∀ (a : List Entry) (b : List Entry) (k : Str) (E : Nat),
    k ∉ keysOf a → findExp (a ++ (k, E) :: b) k = some E
  | [], b, k, E, _ => by simp [findExp]
  | (k0, e0) :: a2, b, k, E, hka => by
    simp only [keysOf, List.map_cons, List.mem_cons] at hka
    push_neg at hka
    simp only [List.cons_append, findExp,
      if_neg (fun h : k0 = k => hka.1 h.symm)]
    exact findExp_seg a2 b k E (by simpa [keysOf] using hka.2)

/-- Removing the distinguished key of a segmented list removes exactly its
entry. -/
theorem removeKey_seg_self : ∀ (a b : List Entry) (k : Str) (E : Nat),
    k ∉ keysOf a → removeKey (a ++ (k, E) :: b) k = a ++ b
  | [], b, k, E, _ => by simp [removeKey]
  | (k0, e0) :: a2, b, k, E, hka => by
    simp only [keysOf, List.map_cons, List.mem_cons] at hka
    push_neg at hka
    simp only [List.cons_append, removeKey,
      if_neg (fun h : k0 = k => hka.1 h.symm)]
    exact congrArg (List.cons (k0, e0))
      (removeKey_seg_self a2 b k E (by simpa [keysOf] using hka.2))

/-- Removing any other key keeps the distinguished entry, at the same or a
lesser depth, with sublists on both sides. -/
theorem removeKey_seg_ne : ∀ (a b : List Entry) (k x : Str) (E : Nat), x ≠ k →
    ∃ a2 b2, removeKey (a ++ (k, E) :: b) x = a2 ++ (k, E) :: b2
      ∧ a2.Sublist a ∧ b2.Sublist b
  | [], b, k, x, E, hxk => by
    refine ⟨[], removeKey b x, ?_, List.Sublist.refl [], removeKey_sublist b x⟩
    simp only [List.nil_append, removeKey, if_neg (fun h : k = x => hxk h.symm)]
  | (k0, e0) :: a2, b, k, x, E, hxk => by
    by_cases hk0 : k0 = x
    · refine ⟨a2, b, ?_, List.sublist_cons_self (k0, e0) a2, List.Sublist.refl b⟩
      simp [removeKey, hk0]
    · obtain ⟨a3, b3, heq, hsa, hsb⟩ := removeKey_seg_ne a2 b k x E hxk
      refine ⟨(k0, e0) :: a3, b3, ?_, hsa.cons₂ (k0, e0), hsb⟩
      simp only [List.cons_append, removeKey, if_neg hk0]
      exact congrArg (List.cons (k0, e0)) heq

/-- Taking `n` elements of a segmented list keeps the whole front segment
and the distinguished entry, when the segment is shorter than `n`. -/
theorem take_seg (n : Nat) (a b : List Entry) (x : Entry) (h : a.length < n) :
    (a ++ x :: b).take n = a ++ x :: b.take (n - a.length - 1) := by
  rw [List.take_append_eq_append_take, List.take_of_length_le (by omega)]
  obtain ⟨s, hs⟩ : ∃ s, n - a.length = s + 1 := ⟨n - a.length - 1, by omega⟩
  rw [hs, List.take_succ_cons, Nat.add_sub_cancel]

/-- The survival invariant weakens as the depth bound grows. -/
theorem SegInv_mono {k : Str} {E j j2 : Nat} {l : List Entry} (h : j ≤ j2)
    (hseg : SegInv k E j l) : SegInv k E j2 l := by
  obtain ⟨a, b, h1, h2, h3, h4⟩ := hseg
  exact ⟨a, b, h1, le_trans h2 h, h3, h4⟩

/-- One `Seen` query of any key deepens the tracked unexpired entry by at
most one position. -/
theorem SegInv_seen (d : Dedup) (now2 : Nat) (x k : Str) (E j : Nat)
    (hseg : SegInv k E j d.ll) (hE : now2 < E) :
    SegInv k E (j + 1) ((d.Seen now2 x).2).ll := by
  obtain ⟨a, b, hl, hlen, hka, hkb⟩ := hseg
  by_cases hx : x = k
  · subst hx
    have hfe : findExp d.ll x = some E := by
      rw [hl]
      exact findExp_seg a b x E hka
    have hrm : removeKey d.ll x = a ++ b := by
      rw [hl]
      exact removeKey_seg_self a b x E hka
    simp only [Dedup.Seen, hfe, if_pos hE]
    refine ⟨[], a ++ b, by simp [hrm], by simp, by simp [keysOf], ?_⟩
    simp only [keysOf, List.map_append, List.mem_append]
    rintro (h | h)
    · exact hka h
    · exact hkb h
  · rcases hfe : findExp d.ll x with _ | ex
    · simp only [Dedup.Seen, hfe]
      exact SegInv_mono (Nat.le_succ j) ⟨a, b, hl, hlen, hka, hkb⟩
    · obtain ⟨a2, b2, heq, hsa, hsb⟩ := removeKey_seg_ne a b k x E hx
      have hrm : removeKey d.ll x = a2 ++ (k, E) :: b2 := by
        rw [hl]
        exact heq
      by_cases hlt : now2 < ex
      · simp only [Dedup.Seen, hfe, if_pos hlt]
        refine ⟨(x, ex) :: a2, b2, by simp [hrm], ?_, ?_,
          keys_not_mem_of_sublist hsb hkb⟩
        · simp only [List.length_cons]
          have h5 := hsa.length_le
          omega
        · simp only [keysOf, List.map_cons, List.mem_cons]
          rintro (h | h)
          · exact hx h.symm
          · exact keys_not_mem_of_sublist hsa hka h
      · simp only [Dedup.Seen, hfe, if_neg hlt]
        exact ⟨a2, b2, hrm, by have h5 := hsa.length_le; omega,
          keys_not_mem_of_sublist hsa hka, keys_not_mem_of_sublist hsb hkb⟩

/-- A `Seen` query that reports not-seen leaves the tracked entry at its
depth (it either finds nothing or removes an expired entry of another
key). -/
theorem SegInv_seen_false (d : Dedup) (now2 : Nat) (x k : Str) (E j : Nat)
    (hxk : x ≠ k) (hseg : SegInv k E j d.ll)
    (hs : (d.Seen now2 x).1 = false) : SegInv k E j ((d.Seen now2 x).2).ll := by
  obtain ⟨a, b, hl, hlen, hka, hkb⟩ := hseg
  rcases hfe : findExp d.ll x with _ | ex
  · simp only [Dedup.Seen, hfe]
    exact ⟨a, b, hl, hlen, hka, hkb⟩
  · by_cases hlt : now2 < ex
    · simp [Dedup.Seen, hfe, hlt] at hs
    · obtain ⟨a2, b2, heq, hsa, hsb⟩ := removeKey_seg_ne a b k x E hxk
      simp only [Dedup.Seen, hfe, if_neg hlt]
      refine ⟨a2, b2, by rw [hl]; exact heq, ?_,
        keys_not_mem_of_sublist hsa hka, keys_not_mem_of_sublist hsb hkb⟩
      have h5 := hsa.length_le
      omega

/-- After a not-seen query the queried key is absent (with duplicate-free
keys): either it was never there, or its expired entry was just evicted. -/
theorem seen_false_not_found (d : Dedup) (now2 : Nat) (x : Str)
    (hnod : (keysOf d.ll).Nodup) (hs : (d.Seen now2 x).1 = false) :
    findExp ((d.Seen now2 x).2).ll x = none := by
  rcases hfe : findExp d.ll x with _ | ex
  · simp [Dedup.Seen, hfe]
  · by_cases hlt : now2 < ex
    · simp [Dedup.Seen, hfe, hlt] at hs
    · simp only [Dedup.Seen, hfe, if_neg hlt]
      exact findExp_removeKey_self d.ll x hnod

/-- Inserting a fresh key by `Mark` deepens the tracked unexpired entry by
one position and cannot evict it while its depth stays below capacity. -/
theorem SegInv_mark_insert (d : Dedup) (now2 : Nat) (x k : Str) (E j : Nat)
    (hxk : x ≠ k) (hfe : findExp d.ll x = none) (hseg : SegInv k E j d.ll)
    (hE : now2 < E) (hjcap : j + 1 < d.cap) :
    SegInv k E (j + 1) ((d.Mark now2 x).ll) := by
  obtain ⟨a, b, hl, hlen, hka, hkb⟩ := hseg
  simp only [Dedup.Mark, hfe]
  rw [hl]
  have hpush : (x, now2 + d.ttl) :: (a ++ (k, E) :: b)
      = ((x, now2 + d.ttl) :: a) ++ (k, E) :: b := rfl
  rw [evictOver, hpush,
    take_seg d.cap ((x, now2 + d.ttl) :: a) b (k, E)
      (by simp only [List.length_cons]; omega),
    sweepTail_middle now2 ((x, now2 + d.ttl) :: a) _ k E hE]
  refine ⟨(x, now2 + d.ttl) :: a, _, rfl,
    by simp only [List.length_cons]; omega, ?_, ?_⟩
  · simp only [keysOf, List.map_cons, List.mem_cons]
    rintro (h | h)
    · exact hxk h.symm
    · exact hka h
  · exact keys_not_mem_of_sublist
      ((sweepTail_sublist _ _).trans (List.take_sublist _ _)) hkb

/-- Marking a fresh key places it at the front, alone, with expiry
`now + ttl` (positive capacity and TTL keep it through eviction and
sweep). -/
theorem Mark_insert_seg (d : Dedup) (now2 : Nat) (k : Str)
    (hfe : findExp d.ll k = none) (hcap : 1 ≤ d.cap) (httl : 1 ≤ d.ttl) :
    SegInv k (now2 + d.ttl) 0 ((d.Mark now2 k).ll) := by
  have hknot : k ∉ keysOf d.ll := (findExp_eq_none_iff d.ll k).1 hfe
  simp only [Dedup.Mark, hfe]
  obtain ⟨c, hc⟩ : ∃ c, d.cap = c + 1 := ⟨d.cap - 1, by omega⟩
  rw [evictOver, hc, List.take_succ_cons]
  have hsw := sweepTail_middle now2 [] (d.ll.take c) k (now2 + d.ttl) (by omega)
  simp only [List.nil_append] at hsw
  rw [hsw]
  refine ⟨[], sweepTail now2 (d.ll.take c), rfl, by simp, by simp [keysOf], ?_⟩
  exact keys_not_mem_of_sublist
    ((sweepTail_sublist _ _).trans (List.take_sublist _ _)) hknot

end store

namespace pipeline

open store

/-- Unfolding the dedup filter when the head event is already seen. -/
theorem dedupFilter_cons_skip {d : Dedup} {now : Nat} {x : model.Event}
    {rest : List model.Event} (hs : (d.Seen now (dedupKey x)).1 = true) :
    dedupFilter d now (x :: rest)
      = dedupFilter (d.Seen now (dedupKey x)).2 now rest := by
  simp [dedupFilter, hs]

/-- Unfolding the dedup filter when the head event is kept and marked. -/
theorem dedupFilter_cons_keep {d : Dedup} {now : Nat} {x : model.Event}
    {rest : List model.Event} (hs : (d.Seen now (dedupKey x)).1 = false) :
    dedupFilter d now (x :: rest)
      = (x :: (dedupFilter (((d.Seen now (dedupKey x)).2).Mark now (dedupKey x))
            now rest).1,
          (dedupFilter (((d.Seen now (dedupKey x)).2).Mark now (dedupKey x))
            now rest).2) := by
  simp [dedupFilter, hs]

/-- The dedup filter changes neither capacity nor TTL of the store. -/
theorem dedupFilter_cap_ttl (now : Nat) : ∀ (evs : List model.Event) (d : Dedup),
    ((dedupFilter d now evs).2).cap = d.cap
    ∧ ((dedupFilter d now evs).2).ttl = d.ttl
  | [], d => ⟨rfl, rfl⟩
  | x :: rest, d => by
    by_cases hs : (d.Seen now (dedupKey x)).1 = true
    · rw [dedupFilter_cons_skip hs]
      have h1 := dedupFilter_cap_ttl now rest ((d.Seen now (dedupKey x)).2)
      have h2 := Seen_cap_ttl d now (dedupKey x)
      exact ⟨h1.1.trans h2.1, h1.2.trans h2.2⟩
    · have hs2 : (d.Seen now (dedupKey x)).1 = false := by
        revert hs
        cases (d.Seen now (dedupKey x)).1 <;> simp
      rw [dedupFilter_cons_keep hs2]
      have h1 := dedupFilter_cap_ttl now rest
        (((d.Seen now (dedupKey x)).2).Mark now (dedupKey x))
      have h2 := Mark_cap_ttl ((d.Seen now (dedupKey x)).2) now (dedupKey x)
      have h3 := Seen_cap_ttl d now (dedupKey x)
      exact ⟨(h1.1.trans h2.1).trans h3.1, (h1.2.trans h2.2).trans h3.2⟩

/-- Core survival induction: an unexpired entry `(k, E)` at depth `j`
survives the dedup filtering of `rest` further events, deepening by at
most one position per event, as long as its depth can never reach the
capacity. -/
theorem dedupFilter_survives (now : Nat) (k : Str) (E : Nat) (hE : now < E) :
    ∀ (rest : List model.Event) (d : Dedup) (j : Nat),
      SegInv k E j d.ll → (keysOf d.ll).Nodup → d.ll.length ≤ d.cap →
      j + rest.length < d.cap →
      SegInv k E (j + rest.length) ((dedupFilter d now rest).2).ll
  | [], d, j, hseg, _, _, _ => by simpa [dedupFilter] using hseg
  | x :: rest, d, j, hseg, hnod, hlen, hcap => by
    have hcap2 : j + 1 + rest.length < d.cap := by
      simp only [List.length_cons] at hcap
      omega
    by_cases hs : (d.Seen now (dedupKey x)).1 = true
    · rw [dedupFilter_cons_skip hs]
      have hccap := Seen_cap_ttl d now (dedupKey x)
      have hrec := dedupFilter_survives now k E hE rest ((d.Seen now (dedupKey x)).2)
        (j + 1)
        (SegInv_seen d now (dedupKey x) k E j hseg hE)
        (nodup_keys_seen d now (dedupKey x) hnod)
        (by rw [hccap.1]; exact le_trans (Seen_length_le d now (dedupKey x)) hlen)
        (by rw [hccap.1]; exact hcap2)
      exact SegInv_mono (by simp only [List.length_cons]; omega) hrec
    · have hs2 : (d.Seen now (dedupKey x)).1 = false := by
        revert hs
        cases (d.Seen now (dedupKey x)).1 <;> simp
      have hxk : dedupKey x ≠ k := by
        intro heq
        obtain ⟨a, b, hl, _, hka, _⟩ := hseg
        have hfe : findExp d.ll (dedupKey x) = some E := by
          rw [heq, hl]
          exact findExp_seg a b k E hka
        have htrue : (d.Seen now (dedupKey x)).1 = true := by
          simp [Dedup.Seen, hfe, hE]
        rw [htrue] at hs2
        cases hs2
      rw [dedupFilter_cons_keep hs2]
      have hccap := Seen_cap_ttl d now (dedupKey x)
      have hmcap := Mark_cap_ttl ((d.Seen now (dedupKey x)).2) now (dedupKey x)
      have hlen1 : ((d.Seen now (dedupKey x)).2).ll.length
          ≤ ((d.Seen now (dedupKey x)).2).cap := by
        rw [hccap.1]
        exact le_trans (Seen_length_le d now (dedupKey x)) hlen
      have hrec := dedupFilter_survives now k E hE rest
        (((d.Seen now (dedupKey x)).2).Mark now (dedupKey x)) (j + 1)
        (SegInv_mark_insert ((d.Seen now (dedupKey x)).2) now (dedupKey x) k E j
          hxk
          (seen_false_not_found d now (dedupKey x) hnod hs2)
          (SegInv_seen_false d now (dedupKey x) k E j hxk hseg hs2)
          hE
          (by rw [hccap.1]; omega))
        (nodup_keys_mark ((d.Seen now (dedupKey x)).2) now (dedupKey x)
          (nodup_keys_seen d now (dedupKey x) hnod))
        (by rw [hmcap.1]
            exact Mark_length_le ((d.Seen now (dedupKey x)).2) now (dedupKey x) hlen1)
        (by rw [hmcap.1, hccap.1]; exact hcap2)
      exact SegInv_mono (by simp only [List.length_cons]; omega) hrec

/-- Every event kept by the dedup filter leaves, in the final store state
of the filter pass, an entry for its composite key with expiry
`now + ttl` — provided the batch fits in the store's capacity, so that no
kept key is evicted by the marks of later events of the same batch. -/
theorem dedupFilter_keeps (now : Nat) : ∀ (evs : List model.Event) (d : Dedup)
    (e : model.Event),
    (keysOf d.ll).Nodup → 1 ≤ d.ttl → d.ll.length ≤ d.cap →
    evs.length ≤ d.cap →
    e ∈ (dedupFilter d now evs).1 →
    findExp ((dedupFilter d now evs).2).ll (dedupKey e) = some (now + d.ttl)
  | [], d, e, _, _, _, _, hmem => by simp [dedupFilter] at hmem
  | x :: rest, d, e, hnod, httl, hlen, hcap, hmem => by
    have hcap1 : rest.length ≤ d.cap := by
      simp only [List.length_cons] at hcap
      omega
    by_cases hs : (d.Seen now (dedupKey x)).1 = true
    · rw [dedupFilter_cons_skip hs] at hmem ⊢
      have hc := Seen_cap_ttl d now (dedupKey x)
      have hrec := dedupFilter_keeps now rest ((d.Seen now (dedupKey x)).2) e
        (nodup_keys_seen d now (dedupKey x) hnod)
        (by rw [hc.2]; exact httl)
        (by rw [hc.1]; exact le_trans (Seen_length_le d now (dedupKey x)) hlen)
        (by rw [hc.1]; exact hcap1)
        hmem
      rwa [hc.2] at hrec
    · have hs2 : (d.Seen now (dedupKey x)).1 = false := by
        revert hs
        cases (d.Seen now (dedupKey x)).1 <;> simp
      rw [dedupFilter_cons_keep hs2] at hmem ⊢
      have hc := Seen_cap_ttl d now (dedupKey x)
      have hm := Mark_cap_ttl ((d.Seen now (dedupKey x)).2) now (dedupKey x)
      have hnod1 := nodup_keys_seen d now (dedupKey x) hnod
      have hlen1 : ((d.Seen now (dedupKey x)).2).ll.length
          ≤ ((d.Seen now (dedupKey x)).2).cap := by
        rw [hc.1]
        exact le_trans (Seen_length_le d now (dedupKey x)) hlen
      have hnod2 := nodup_keys_mark ((d.Seen now (dedupKey x)).2) now (dedupKey x)
        hnod1
      have hlen2 : (((d.Seen now (dedupKey x)).2).Mark now (dedupKey x)).ll.length
          ≤ (((d.Seen now (dedupKey x)).2).Mark now (dedupKey x)).cap := by
        rw [hm.1]
        exact Mark_length_le ((d.Seen now (dedupKey x)).2) now (dedupKey x) hlen1
      rcases List.mem_cons.mp hmem with heq | hmem2
      · subst heq
        have hcpos : 1 ≤ d.cap := by
          simp only [List.length_cons] at hcap
          omega
        have hmk := Mark_insert_seg ((d.Seen now (dedupKey e)).2) now (dedupKey e)
          (seen_false_not_found d now (dedupKey e) hnod hs2)
          (by rw [hc.1]; exact hcpos)
          (by rw [hc.2]; exact httl)
        rw [hc.2] at hmk
        have hsur := dedupFilter_survives now (dedupKey e) (now + d.ttl)
          (by omega) rest (((d.Seen now (dedupKey e)).2).Mark now (dedupKey e)) 0
          hmk hnod2 hlen2
          (by rw [hm.1, hc.1]
              simp only [List.length_cons] at hcap
              omega)
        obtain ⟨a, b, hl, _, hka, _⟩ := hsur
        rw [hl]
        exact findExp_seg a b (dedupKey e) (now + d.ttl) hka
      · have hrec := dedupFilter_keeps now rest
          (((d.Seen now (dedupKey x)).2).Mark now (dedupKey x)) e hnod2
          (by rw [hm.2, hc.2]; exact httl)
          hlen2
          (by rw [hm.1, hc.1]; exact hcap1)
          hmem2
        rwa [hm.2, hc.2] at hrec

/-- The push stage returns the dedup store it was given, whatever the sink
outcomes. -/
theorem pushStage_dedup (compileOk : Str → Bool) (reMatch : Str → Str → Bool)
    (cfgPost : config.PostProcessConfig)
    (sinks : List (List model.Event → Option Str)) (kept : List model.Event)
    (d1 : Option Dedup) :
    (pushStage compileOk reMatch cfgPost sinks kept d1).dedup = d1 := by
  by_cases hk : kept.isEmpty
  · simp [pushStage, hk]
  · by_cases he : (sinks.filterMap fun sk =>
        sk (postprocess.Apply compileOk reMatch kept cfgPost)).isEmpty
      <;> simp [pushStage, hk, he]

end pipeline

open pipeline store in
/-- C1 (amended): in a cycle at time `now`, every event kept by the dedup
filter has its composite key marked in the store during the filter step —
before any sink push outcome is consulted — and the mark is never undone
afterwards: the store state returned by the source's cycle step equals the
post-filter state even when every sink push fails, so, provided the
fetched batch fits within the store's capacity (no capacity eviction by
the other keys of the batch), querying the key at any time strictly
within its TTL still reports it as seen. -/
theorem C1_dedup_mark_no_rollback (compileOk : Str → Bool)
    (reMatch : Str → Str → Bool) (cfgPost : config.PostProcessConfig)
    (sinks : List (List model.Event → Option Str)) (now t2 : Nat) (dd : Dedup)
    (evs0 : List model.Event) (e : model.Event)
    (hnod : (keysOf dd.ll).Nodup) (hlen : dd.ll.length ≤ dd.cap)
    (httl : 1 ≤ dd.ttl) (hcap : evs0.length ≤ dd.cap)
    (hkeep : e ∈ (dedupFilter dd now evs0).1) (ht2 : t2 < now + dd.ttl) :
    (processSource compileOk reMatch cfgPost sinks now (some dd)
        (some evs0)).dedup = some (dedupFilter dd now evs0).2
    ∧ (((dedupFilter dd now evs0).2).Seen t2 (dedupKey e)).1 = true := by
  constructor
  · exact pushStage_dedup compileOk reMatch cfgPost sinks
      (dedupFilter dd now evs0).1 (some (dedupFilter dd now evs0).2)
  · have hfind := dedupFilter_keeps now evs0 dd e hnod httl hlen hcap hkeep
    simp [Dedup.Seen, hfind, ht2]

/-- Counterexample to C1 as stated: with a store of capacity 1 and two
distinct events in the batch, both pass the filter and are marked, the
store is not rolled back — yet the first event's key is no longer seen
inside its TTL, because the second event's mark evicted it; a re-run would
process the first event again. -/
theorem C1_dedup_mark_no_rollback_cex :
    (pipeline.dedupFilter (store.NewDedup 1 100) 0 [fixtures.evA, fixtures.evB]).1
        = [fixtures.evA, fixtures.evB]
    ∧ (pipeline.processSource fixtures.compileAlways fixtures.matchAlways
        fixtures.cfgEmpty [fixtures.failSink] 0 (some (store.NewDedup 1 100))
        (some [fixtures.evA, fixtures.evB])).dedup
        = some (pipeline.dedupFilter (store.NewDedup 1 100) 0
            [fixtures.evA, fixtures.evB]).2
    ∧ (((pipeline.dedupFilter (store.NewDedup 1 100) 0
          [fixtures.evA, fixtures.evB]).2).Seen 10
            (pipeline.dedupKey fixtures.evA)).1 = false := by
  decide

/-- Witness for C1 at concrete values: capacity 5, TTL 100, batch of two
events, every sink failing; the first event passed the filter and its key
is still seen at time 50 in the store returned by the cycle step. -/
theorem C1_dedup_mark_no_rollback_witness :
    (pipeline.processSource fixtures.compileAlways fixtures.matchAlways
        fixtures.cfgEmpty [fixtures.failSink] 0 (some (store.NewDedup 5 100))
        (some [fixtures.evA, fixtures.evB])).dedup
        = some (pipeline.dedupFilter (store.NewDedup 5 100) 0
            [fixtures.evA, fixtures.evB]).2
    ∧ (((pipeline.dedupFilter (store.NewDedup 5 100) 0
          [fixtures.evA, fixtures.evB]).2).Seen 50
            (pipeline.dedupKey fixtures.evA)).1 = true :=
  C1_dedup_mark_no_rollback fixtures.compileAlways fixtures.matchAlways
    fixtures.cfgEmpty [fixtures.failSink] 0 50 (store.NewDedup 5 100)
    [fixtures.evA, fixtures.evB] fixtures.evA (by decide) (by decide) (by decide)
    (by decide) (by decide) (by decide)


